import Mathlib

/-!
# Sigil `ImportHTML.cpp`: a shallow embedding

The importer works on one mutable `QString`, `m_Book.source`.  Text is modelled
as `List Char`; the Qt string and regular-expression primitives the importer
calls are modelled first (literal search and global replace, a backtracking
matcher for the handful of pattern shapes the file uses), then the functions of
`ImportHTML.cpp` themselves, each `while ( true )` loop as a fuel-indexed
function that returns `none` when the fuel runs out.

Modelling notes.

* Qt is a library outside the repository.  `QString::replace( before, after )`
  replaces every occurrence; `indexOf( rx, start )` finds the leftmost match.
  The matcher is greedy with backtracking.  Where a pattern can match in more
  than one way at a position, matchers may differ in the text they capture; the
  general theorems below rest on `Rx.run_sound` and `Rx.run_complete` alone,
  which hold for every such choice, and the concrete inputs match in one way.
* `\s` and `\w` follow the Unicode category of a character, as `QRegExp` does.
  The categories of the ASCII characters are written out; beyond ASCII they are
  read from a table that is a parameter of every definition with such a pattern,
  and the theorems hold for every table.
* `Utility::ReadUnicodeTextFile`, `FolderKeeper::AddContentFileToFolder`, the
  resolution of a reference against the directory of the imported file, and
  `CleanSource::Clean` with the DOM round trip are taken from outside: the first
  three are the fields of `Env`, and `StripFilesFromAnchors` is modelled on the
  list of elements of the parsed document.
-/

namespace Sigil

/-- The document text, a `QString`. -/
abbrev Text := List Char

/-! ## Qt string primitives -/

/-- The double quote character. -/
def dq : Char := Char.ofNat 34

/-- `QString::contains( str )`: `pat` occurs somewhere in `s`. -/
def contains : Text → Text → Bool
  | [], pat => pat.isPrefixOf []
  | c :: cs, pat => pat.isPrefixOf (c :: cs) || contains cs pat

/-- Scan of `QString::replace( before, after )` for a non-empty `before`:
the counter is the number of characters of the current occurrence still to be
dropped. -/
def replaceGo (before after : Text) : Nat → Text → Text
  | _, [] => []
  | k + 1, _ :: cs => replaceGo before after k cs
  | 0, c :: cs =>
    if before.isPrefixOf (c :: cs) then after ++ replaceGo before after (before.length - 1) cs
    else c :: replaceGo before after 0 cs

/-- `QString::replace( before, after )`: every occurrence of the string
`before`, found left to right and not overlapping, is replaced by `after`.  An
empty `before` matches before every character and at the end. -/
def replace (s before after : Text) : Text :=
  match before with
  | [] => after ++ s.flatMap (fun c => c :: after)
  | _ :: _ => replaceGo before after 0 s

/-- `QString::split( sep )` for a one-character separator, empty parts kept. -/
def split (sep : Char) : Text → List Text
  | [] => [[]]
  | c :: cs =>
    if c = sep then [] :: split sep cs
    else
      match split sep cs with
      | [] => [[c]]
      | p :: ps => (c :: p) :: ps

/-- Text after the last occurrence of `sep` (the whole text when there is none). -/
def afterLast (sep : Char) (s : Text) : Text := (split sep s).getLast?.getD []

/-- `QFileInfo( path ).fileName()`: the part after the last `/`. -/
def fileName (path : Text) : Text := afterLast '/' path

/-- `QFileInfo( path ).suffix()`: what follows the last `.` of the file name,
empty when the file name has no dot. -/
def suffix (path : Text) : Text :=
  if (fileName path).contains '.' then afterLast '.' (fileName path) else []

/-! ## Regular expressions

`QRegExp` patterns of the shapes used in `ImportHTML.cpp`: literals, a
character class under `*` or `+`, concatenation, alternation and numbered
capturing groups.  Quantifiers are greedy; the matcher backtracks. -/

/-- Regular expression syntax trees. -/
inductive Rx where
  | lit (t : Text)
  | star (cls : Char → Bool)
  | plus (cls : Char → Bool)
  | seq (a b : Rx)
  | alt (a b : Rx)
  | group (n : Nat) (a : Rx)

/-- The captured texts, by group number. -/
abbrev Caps := Nat → Text

/-- Greedy `cls*` followed by the continuation `k`: as many characters as
possible, giving one back at a time while `k` fails.  The counter is the number
of characters taken so far. -/
def starRun {α : Type} (cls : Char → Bool) (k : Nat → Text → Option α) : Nat → Text → Option α
  | n, [] => k n []
  | n, c :: cs =>
    if cls c then
      match starRun cls k (n + 1) cs with
      | some r => some r
      | none => k n (c :: cs)
    else k n (c :: cs)

/-- Match `r` at the start of `s`, then hand the number of characters matched,
the rest of the text and the captures to `k`. -/
def Rx.run {α : Type} : Rx → Text → Caps → (Nat → Text → Caps → Option α) → Option α
  | .lit t, s, caps, k => if t.isPrefixOf s then k t.length (s.drop t.length) caps else none
  | .star cls, s, caps, k => starRun cls (fun n r => k n r caps) 0 s
  | .plus cls, s, caps, k =>
    match s with
    | [] => none
    | c :: cs => if cls c then starRun cls (fun n r => k n r caps) 1 cs else none
  | .seq a b, s, caps, k =>
    a.run s caps (fun n r caps1 => b.run r caps1 (fun m r2 caps2 => k (n + m) r2 caps2))
  | .alt a b, s, caps, k =>
    match a.run s caps k with
    | some r => some r
    | none => b.run s caps k
  | .group g a, s, caps, k =>
    a.run s caps (fun n r caps1 => k n r (Function.update caps1 g (s.take n)))

/-- Concatenation of a list of patterns. -/
def Rx.cat : List Rx → Rx
  | [] => .lit []
  | [r] => r
  | r :: rs => .seq r (Rx.cat rs)

/-- A successful match: `matchedLength()` and `cap( n )`; `cap 0` is the whole
match. -/
structure Hit where
  len : Nat
  cap : Caps

/-- Anchored match of `r` at the start of `s`. -/
def Rx.matchAt (r : Rx) (s : Text) : Option Hit :=
  r.run s (fun _ => []) (fun n _ caps => some ⟨n, Function.update caps 0 (s.take n)⟩)

/-- Leftmost match of `r` in `s`, the position counted from `i`. -/
def Rx.search (r : Rx) : Nat → Text → Option (Nat × Hit)
  | i, [] => (r.matchAt []).map (fun h => (i, h))
  | i, c :: cs =>
    match r.matchAt (c :: cs) with
    | some h => some (i, h)
    | none => r.search (i + 1) cs

/-- `QString::indexOf( rx, start )`: position and captures of the leftmost
match that starts at or after `start`; `none` is Qt's `-1`. -/
def indexOf (s : Text) (r : Rx) (start : Nat) : Option (Nat × Hit) :=
  if start ≤ s.length then r.search start (s.drop start) else none

/-- Scan of `QString::replace( rx, after )`; the counter is the number of
characters of the current match still to be dropped. -/
def Rx.replaceGo (r : Rx) (after : Text) : Nat → Text → Text
  | _, [] => []
  | k + 1, _ :: cs => r.replaceGo after k cs
  | 0, c :: cs =>
    match r.matchAt (c :: cs) with
    | some h =>
      match h.len with
      | 0 => after ++ c :: r.replaceGo after 0 cs
      | n + 1 => after ++ r.replaceGo after n cs
    | none => c :: r.replaceGo after 0 cs

/-- `QString::replace( rx, after )`: every match of `rx`, left to right, is
replaced by `after`. -/
def replaceRx (s : Text) (r : Rx) (after : Text) : Text := r.replaceGo after 0 s

/-- The groups of `QChar::Category` that `\s` and `\w` tell apart: the marks
(`Mark_NonSpacing`, `Mark_SpacingCombining`, `Mark_Enclosing`), the numbers
(`Number_DecimalDigit`, `Number_Letter`, `Number_Other`), the separators
(`Separator_Space`, `Separator_Line`, `Separator_Paragraph`), the letters
(`Letter_Uppercase` to `Letter_Other`), and every other category. -/
inductive Category where
  | mark
  | number
  | separator
  | letter
  | other
  deriving DecidableEq

/-- Qt's table of Unicode character properties, `qGetProp( ucs )->category`,
reduced to the groups of `Category`.  The table belongs to the Qt library and
changes with its Unicode version, so it is taken from outside. -/
abbrev UnicodeTable := Char → Category

/-- `QChar::category()` of a character of the text.  The categories of the ASCII
characters are fixed: the letters, the digits, the blank as the one separator.
A character beyond U+FFFF is a pair of surrogates in a `QString`, each of
category `Other_Surrogate`.  All other characters are looked up in the table. -/
def category (table : UnicodeTable) (c : Char) : Category :=
  if c.toNat < 128 then
    if c.isAlpha then .letter
    else if c.isDigit then .number
    else if c = ' ' then .separator
    else .other
  else if c.toNat < 65536 then table c
  else .other

/-- `\s` of `QRegExp`: the range U+0009 to U+000D and the separator categories
(`addRange( 0x0009, 0x000d )`, `addCategories( 0x00000380 )`), which is
`QChar::isSpace()`. -/
def isSpace (table : UnicodeTable) (c : Char) : Bool :=
  (decide (9 ≤ c.toNat) && decide (c.toNat ≤ 13)) ||
    match category table c with
    | .separator => true
    | _ => false

/-- `\w` of `QRegExp`: the mark, number and letter categories and the
underscore (`addCategories( 0x000f807e )`, `addSingleton( 0x005f )`), which is
`QChar::isLetterOrNumber()`, `QChar::isMark()` or `_`. -/
def isWord (table : UnicodeTable) (c : Char) : Bool :=
  c = '_' ||
    match category table c with
    | .mark => true
    | .number => true
    | .letter => true
    | _ => false

/-- The table on the Latin-1 supplement, U+0080 to U+00FF, with every character
beyond it in no group: the table of the closed examples, whose text stays
within Latin-1. -/
def latin1 : UnicodeTable := fun c =>
  if c.toNat = 0xA0 then .separator
  else if c.toNat = 0xAA ∨ c.toNat = 0xB5 ∨ c.toNat = 0xBA
      ∨ (0xC0 ≤ c.toNat ∧ c.toNat ≤ 0xFF ∧ c.toNat ≠ 0xD7 ∧ c.toNat ≠ 0xF7) then .letter
  else if c.toNat = 0xB2 ∨ c.toNat = 0xB3 ∨ c.toNat = 0xB9
      ∨ (0xBC ≤ c.toNat ∧ c.toNat ≤ 0xBE) then .number
  else .other

/-! ## `ImportHTML.cpp` -/

/-- The pattern `ENTITY_SEARCH`, `<!ENTITY\s+(\w+)\s+"([^"]+)">`. -/
def ENTITY_SEARCH (table : UnicodeTable) : Rx :=
  Rx.cat [.lit "<!ENTITY".toList, .plus (isSpace table), .group 1 (.plus (isWord table)),
    .plus (isSpace table),
    .lit [dq], .group 2 (.plus (fun c => c != dq)), .lit [dq, '>']]

/-- The pattern `\[\s*\]>` of the last step of `ResolveCustomEntities`. -/
def SUBSET_END (table : UnicodeTable) : Rx :=
  Rx.cat [.lit ['['], .star (isSpace table), .lit [']', '>']]

/-- The table `QHash< QString, QString > entities`. -/
abbrev Entities := List (Text × Text)

/-- The assignment `entities[ key ] = value`. -/
def Entities.set (key value : Text) : Entities → Entities
  | [] => [(key, value)]
  | (k, v) :: es => if k = key then (k, value) :: es else (k, v) :: Entities.set key value es

/-- The value `entities[ key ]`. -/
def Entities.get (es : Entities) (key : Text) : Text := (es.lookup key).getD []

/-- The first loop of `ResolveCustomEntities`: record each declaration and
erase its text from the source. -/
def ResolveCustomEntities.declarations (table : UnicodeTable) :
    Nat → Nat → Entities → Text → Option (Entities × Text)
  | 0, _, _, _ => none
  | fuel + 1, main_index, entities, source =>
    match indexOf source (ENTITY_SEARCH table) main_index with
    | none => some (entities, source)
    | some (found, hit) =>
      ResolveCustomEntities.declarations table fuel found
        (entities.set ('&' :: (hit.cap 1 ++ [';'])) (hit.cap 2))
        (replace source (hit.cap 0) [])

/-- An iteration order of `QHash::keys()`, which Qt leaves open: the keys of the
table, each once, in some order. -/
structure KeyOrder where
  keys : Entities → List Text
  perm : ∀ es : Entities, (keys es).Perm (es.map Prod.fst)

/-- `ImportHTML::ResolveCustomEntities`; `order` is the order in which
`entities.keys()` lists the table. -/
def ResolveCustomEntities (table : UnicodeTable) (order : KeyOrder) (fuel : Nat)
    (html_source : Text) : Option Text :=
  match ResolveCustomEntities.declarations table fuel 0 [] html_source with
  | none => none
  | some (entities, source) =>
    some (replaceRx
      ((order.keys entities).foldl (fun src key => replace src key (entities.get key)) source)
      (SUBSET_END table) [])

/-- The keys in insertion order. -/
def insertionOrder : KeyOrder where
  keys := fun es => es.map Prod.fst
  perm := fun _ => List.Perm.refl _

/-- The font pattern of `UpdateReferences`, `src:\s*\w+\(([^\)]*` filename `)\)`. -/
def fontReference (table : UnicodeTable) (filename : Text) : Rx :=
  Rx.cat [.lit "src:".toList, .star (isSpace table), .plus (isWord table), .lit ['('],
    .group 1 (.seq (.star (fun c => c != ')')) (.lit filename)), .lit [')']]

/-- The pattern of `UpdateReferences` for all other resources,
`<[^>]*"([^">]*` filename `)"[^>]*>`. -/
def tagReference (filename : Text) : Rx :=
  Rx.cat [.lit ['<'], .star (fun c => c != '>'), .lit [dq],
    .group 1 (.seq (.star (fun c => c != dq && c != '>')) (.lit filename)),
    .lit [dq], .star (fun c => c != '>'), .lit ['>']]

/-- The `QRegExp reference` that `UpdateReferences` builds from the file name. -/
def reference (table : UnicodeTable) (filename : Text) : Rx :=
  if contains filename ".ttf".toList || contains filename ".otf".toList then
    fontReference table filename
  else tagReference filename

/-- The loop of `UpdateReferences`; `index` is `none` for `-1`. -/
def UpdateReferences.loop (rx : Rx) (newpath : Text) : Nat → Option Nat → Text → Option Text
  | 0, _, _ => none
  | fuel + 1, index, source =>
    match indexOf source rx 0 with
    | none => some source
    | some (newindex, hit) =>
      if index = some newindex then some source
      else UpdateReferences.loop rx newpath fuel (some newindex)
        (replace source (hit.cap 1) newpath)

/-- `ImportHTML::UpdateReferences` on `m_Book.source`. -/
def UpdateReferences (table : UnicodeTable) (fuel : Nat) (source oldpath newpath : Text) :
    Option Text :=
  UpdateReferences.loop (reference table (fileName oldpath)) newpath fuel none source

/-- `ImportHTML::CreateStyleTag`; `readFile` is `Utility::ReadUnicodeTextFile`. -/
def CreateStyleTag (readFile : Text → Text) (fullfilepath : Text) : Text :=
  if suffix fullfilepath = "css".toList then
    "<style type=\"text/css\">\n".toList ++ readFile fullfilepath ++ "\n</style>\n".toList
  else
    "<style type=\"application/vnd.adobe-page-template+xml\">\n".toList
      ++ readFile fullfilepath ++ "\n</style>\n".toList

/-- What `LoadFolderStructure` takes from outside `ImportHTML.cpp`. -/
structure Env where
  /-- The absolute path `QFileInfo( folder, QUrl( url ).toString() ).absoluteFilePath()`
  of a reference, `folder` being the directory of the imported file. -/
  resolve : Text → Text
  /-- The text of a file, `Utility::ReadUnicodeTextFile`. -/
  readFile : Text → Text
  /-- The relative path that `FolderKeeper::AddContentFileToFolder` returns for a
  file, given the files added before. -/
  addContentFile : List Text → Text → Text

/-- The part of `m_Book` the importer touches: the source and the files handed to
`mainfolder.AddContentFileToFolder`, in call order. -/
structure Book where
  source : Text
  mainfolder : List Text
  deriving DecidableEq

/-- The sub-pattern `image`, `<\s*(?:img|IMG)[^>]*src\s*=\s*`. -/
def image (table : UnicodeTable) : Rx :=
  Rx.cat [.lit ['<'], .star (isSpace table), .alt (.lit "img".toList) (.lit "IMG".toList),
    .star (fun c => c != '>'), .lit "src".toList, .star (isSpace table), .lit ['='],
    .star (isSpace table)]

/-- The sub-pattern `link_element`, `<\s*(?:link|LINK)[^>]*href\s*=\s*`. -/
def link_element (table : UnicodeTable) : Rx :=
  Rx.cat [.lit ['<'], .star (isSpace table), .alt (.lit "link".toList) (.lit "LINK".toList),
    .star (fun c => c != '>'), .lit "href".toList, .star (isSpace table), .lit ['='],
    .star (isSpace table)]

/-- The sub-pattern `resource_url`, `"([^">]+)"`. -/
def resource_url : Rx :=
  Rx.cat [.lit [dq], .group 1 (.plus (fun c => c != dq && c != '>')), .lit [dq]]

/-- The sub-pattern `tail`, `[^>]*>`. -/
def tail : Rx := Rx.cat [.star (fun c => c != '>'), .lit ['>']]

/-- The pattern `fileurl`, `(?:` image `|` link_element `)` resource_url tail. -/
def fileurl (table : UnicodeTable) : Rx :=
  Rx.cat [.alt (image table) (link_element table), resource_url, tail]

/-- The loop of `LoadFolderStructure`.  `ufuel` bounds each run of the loop of
`UpdateReferences`, the first counter bounds this loop.  In
`index = indexOf( fileurl, index ) + fileurl.matchedLength()` the length is that
of the match just found; without a match both terms are `-1` and the loop
breaks, which is the `none` branch. -/
def LoadFolderStructure.loop (table : UnicodeTable) (env : Env) (ufuel : Nat) :
    Nat → Nat → Book → Option Book
  | 0, _, _ => none
  | fuel + 1, index, book =>
    match indexOf book.source (fileurl table) index with
    | none => some book
    | some (found, hit) =>
      let fullfilepath := env.resolve (hit.cap 1)
      if !contains fullfilepath ".css".toList then
        match UpdateReferences table ufuel book.source (hit.cap 1)
            ("../".toList ++ env.addContentFile book.mainfolder fullfilepath) with
        | none => none
        | some source =>
          LoadFolderStructure.loop table env ufuel fuel (found + hit.len)
            ⟨source, book.mainfolder ++ [fullfilepath]⟩
      else
        LoadFolderStructure.loop table env ufuel fuel (found + hit.len)
          ⟨replace book.source (hit.cap 0) (CreateStyleTag env.readFile fullfilepath),
            book.mainfolder⟩

/-- `ImportHTML::LoadFolderStructure`. -/
def LoadFolderStructure (table : UnicodeTable) (env : Env) (ufuel fuel : Nat) (book : Book) :
    Option Book :=
  LoadFolderStructure.loop table env ufuel fuel 0 book

/-- An element of the `QDomDocument`: its tag name and attributes. -/
structure Element where
  tagName : Text
  attributes : List (Text × Text)
  deriving DecidableEq

/-- `QDomElement::hasAttribute`. -/
def Element.hasAttribute (e : Element) (name : Text) : Bool := (e.attributes.lookup name).isSome

/-- `QDomElement::attribute`. -/
def Element.attribute (e : Element) (name : Text) : Text := (e.attributes.lookup name).getD []

/-- `QDomElement::setAttribute`. -/
def Element.setAttribute (e : Element) (name value : Text) : Element :=
  ⟨e.tagName, Entities.set name value e.attributes⟩

/-- `QUrl( url ).isRelative()`: the URL has no scheme, that is, it does not
begin with a letter and further letters, digits, `+`, `-` or `.` up to a colon. -/
def QUrl.isRelative (url : Text) : Bool :=
  match url.span (fun c => c.isAlphanum || c = '+' || c = '-' || c = '.') with
  | (scheme, ':' :: _) => !(scheme.head?.any Char.isAlpha)
  | _ => true

/-- The body of the loop of `StripFilesFromAnchors` for one anchor; `isRelative`
is `QUrl( href ).isRelative()`.  `none` stands for an index out of range in
`split( "#" )[ 1 ]`. -/
def StripFilesFromAnchors.anchor (isRelative : Text → Bool) (element : Element) :
    Option Element :=
  if element.hasAttribute "href".toList && isRelative (element.attribute "href".toList)
      && contains (element.attribute "href".toList) ['#'] then
    match (split '#' (element.attribute "href".toList))[1]? with
    | some fragment => some (element.setAttribute "href".toList ('#' :: fragment))
    | none => none
  else some element

/-- The loop of `ImportHTML::StripFilesFromAnchors` over the elements of the
parsed document: those named `a` are rewritten. -/
def StripFilesFromAnchors (isRelative : Text → Bool) (document : List Element) :
    Option (List Element) :=
  document.mapM (fun e =>
    if e.tagName = ['a'] then StripFilesFromAnchors.anchor isRelative e else some e)

/-! ## Specification-side definitions -/

/-- Declarative meaning of a pattern: `r.Sem x c c1` says that `r` can match
exactly the text `x`, turning the captures `c` into `c1`. -/
inductive Rx.Sem : Rx → Text → Caps → Caps → Prop
  | lit (t : Text) (c : Caps) : Rx.Sem (.lit t) t c c
  | star (cls : Char → Bool) (x : Text) (c : Caps) :
      (∀ ch ∈ x, cls ch = true) → Rx.Sem (.star cls) x c c
  | plus (cls : Char → Bool) (x : Text) (c : Caps) :
      x ≠ [] → (∀ ch ∈ x, cls ch = true) → Rx.Sem (.plus cls) x c c
  | seq {a b : Rx} {x y : Text} {c c1 c2 : Caps} :
      Rx.Sem a x c c1 → Rx.Sem b y c1 c2 → Rx.Sem (.seq a b) (x ++ y) c c2
  | altL {a b : Rx} {x : Text} {c c1 : Caps} : Rx.Sem a x c c1 → Rx.Sem (.alt a b) x c c1
  | altR {a b : Rx} {x : Text} {c c1 : Caps} : Rx.Sem b x c c1 → Rx.Sem (.alt a b) x c c1
  | group {a : Rx} {x : Text} {c c1 : Caps} (g : Nat) :
      Rx.Sem a x c c1 → Rx.Sem (.group g a) x c (Function.update c1 g x)

/-- The text `x` matches the pattern `r`. -/
def Rx.Matches (r : Rx) (x : Text) : Prop := ∃ c c1, r.Sem x c c1

/-- Some substring of `s` matches the pattern `r`. -/
def Rx.occursIn (r : Rx) (s : Text) : Prop := ∃ pre x post, s = pre ++ x ++ post ∧ r.Matches x

/-- `Declaration table x`: the text `x` is an entity declaration as the pattern
`ENTITY_SEARCH` describes it: `<!ENTITY`, white space, a name of word
characters, white space, a non-empty value between double quotes, `>`. -/
def Declaration (table : UnicodeTable) (x : Text) : Prop :=
  ∃ s1 n s2 v, x = "<!ENTITY".toList ++ (s1 ++ (n ++ (s2 ++ dq :: (v ++ [dq, '>'])))) ∧
    s1 ≠ [] ∧ (∀ c ∈ s1, isSpace table c = true) ∧
    n ≠ [] ∧ (∀ c ∈ n, isWord table c = true) ∧
    s2 ≠ [] ∧ (∀ c ∈ s2, isSpace table c = true) ∧ v ≠ [] ∧ dq ∉ v

/-- `Marker table m`: the text `m` is a marker, `[`, a run of white space
(possibly empty), `]>`. -/
def Marker (table : UnicodeTable) (m : Text) : Prop :=
  ∃ w, m = '[' :: (w ++ [']', '>']) ∧ ∀ ch ∈ w, isSpace table ch = true

/-- `MarkersDeleted table s out`: `out` is `s` read left to right with every
marker left out and every other character kept. -/
inductive MarkersDeleted (table : UnicodeTable) : Text → Text → Prop
  | done : MarkersDeleted table [] []
  | marker (m rest out : Text) :
      Marker table m → MarkersDeleted table rest out → MarkersDeleted table (m ++ rest) out
  | keep (c : Char) (cs out : Text) :
      (∀ m, Marker table m → ¬ m <+: c :: cs) →
      MarkersDeleted table cs out → MarkersDeleted table (c :: cs) (c :: out)

/-- The substring after the first `#` of a reference. -/
def afterFirstHash (href : Text) : Text := (href.dropWhile (fun c => c != '#')).drop 1

/-- An import from the directory `/book` whose content folder files every
resource under `images/` and keeps its file name; every style sheet reads
`body{}`. -/
def bookEnv : Env where
  resolve := fun url => "/book/".toList ++ url
  readFile := fun _ => "body{}".toList
  addContentFile := fun _ path => "images/".toList ++ fileName path

/-- An import from `/book` where the file `style.css` holds a link tag to
itself. -/
def loopEnv : Env where
  resolve := fun url => "/book/".toList ++ url
  readFile := fun _ => "<link href=\"style.css\">".toList
  addContentFile := fun _ path => "images/".toList ++ fileName path

/-- The text of a declaration, `<!ENTITY name "value">`. -/
def declaration (name value : Text) : Text :=
  "<!ENTITY ".toList ++ name ++ ' ' :: dq :: value ++ [dq, '>']

/-- The link tag `<link href="style.css">`. -/
def linkTag : Text := "<link href=\"style.css\">".toList

/-- The first line of the style block that `CreateStyleTag` builds for a CSS file. -/
def styleOpen : Text := "<style type=\"text/css\">\n".toList

/-- The last lines of the style block that `CreateStyleTag` builds. -/
def styleClose : Text := "\n</style>\n".toList

/-- The text `x` repeated `n` times. -/
def rep (x : Text) : Nat → Text
  | 0 => []
  | n + 1 => x ++ rep x n

/-- The link tag inside `k` nested style blocks. -/
def nested (k : Nat) : Text := rep styleOpen k ++ (linkTag ++ rep styleClose k)

/-- `Quoted src s`: the text `s` is a double-quoted value inside a tag of `src`,
as the pattern of `UpdateReferences` sees tags: a `<`, no `>` up to the opening
quote, no quote and no `>` in `s`, and a `>` somewhere after the closing quote. -/
def Quoted (src s : Text) : Prop :=
  ∃ pre a b post, src = pre ++ '<' :: (a ++ dq :: (s ++ dq :: (b ++ '>' :: post))) ∧
    '>' ∉ a ∧ dq ∉ s ∧ '>' ∉ s ∧ '>' ∉ b

/-- A tag that holds the double-quoted value `value`: `<`, the text `a`, the
quoted value, the text `b`, `>`. -/
def quotedTag (a value b : Text) : Text := '<' :: (a ++ dq :: (value ++ dq :: (b ++ ['>'])))

/-! ## The matcher against its declarative meaning -/

theorem starRun_sound {α : Type} (cls : Char → Bool) (k : Nat → Text → Option α) :
    ∀ (s : Text) (n : Nat) (v : α), starRun cls k n s = some v →
      ∃ a r, s = a ++ r ∧ (∀ c ∈ a, cls c = true) ∧ k (n + a.length) r = some v := by
  intro s
  induction s with
  | nil =>
    intro n v h
    exact ⟨[], [], rfl, by simp, by simpa [starRun] using h⟩
  | cons c cs ih =>
    intro n v h
    unfold starRun at h
    by_cases hc : cls c = true
    · simp only [hc, if_true] at h
      cases hrec : starRun cls k (n + 1) cs with
      | some r =>
        rw [hrec] at h
        obtain ⟨a, r', hs, ha, hk⟩ := ih (n + 1) r hrec
        refine ⟨c :: a, r', by simp [hs], ?_, ?_⟩
        · intro x hx
          rcases List.mem_cons.1 hx with rfl | hx
          · exact hc
          · exact ha x hx
        · simp only [List.length_cons]
          have : n + (a.length + 1) = n + 1 + a.length := by omega
          rw [this, hk]
          simpa using h
      | none =>
        rw [hrec] at h
        exact ⟨[], c :: cs, rfl, by simp, by simpa using h⟩
    · simp only [hc] at h
      exact ⟨[], c :: cs, rfl, by simp, by simpa using h⟩

theorem starRun_complete {α : Type} (cls : Char → Bool) (k : Nat → Text → Option α) :
    ∀ (a r : Text) (n : Nat), (∀ c ∈ a, cls c = true) → (k (n + a.length) r).isSome = true →
      (starRun cls k n (a ++ r)).isSome = true := by
  intro a
  induction a with
  | nil =>
    intro r n _ hk
    cases r with
    | nil => simpa [starRun] using hk
    | cons c cs =>
      simp only [List.nil_append, starRun]
      by_cases hc : cls c = true
      · simp only [hc, if_true]
        cases starRun cls k (n + 1) cs with
        | some r => rfl
        | none => simpa using hk
      · simp only [hc]
        simpa using hk
  | cons c cs ih =>
    intro r n ha hk
    have hc : cls c = true := ha c (List.mem_cons_self _ _)
    have h1 := ih r (n + 1) (fun x hx => ha x (List.mem_cons_of_mem _ hx))
      (by simpa [Nat.add_assoc, Nat.add_comm 1] using hk)
    simp only [List.cons_append, starRun, hc, if_true]
    cases hrec : starRun cls k (n + 1) (cs ++ r) with
    | some r => rfl
    | none => rw [hrec] at h1; simp at h1

/-- Greedy: when the class cannot be extended beyond `a` and `k` accepts there. -/
theorem starRun_greedy {α : Type} (cls : Char → Bool) (k : Nat → Text → Option α) :
    ∀ (a r : Text) (n : Nat) (v : α), (∀ c ∈ a, cls c = true) →
      (∀ c, r.head? = some c → cls c = false) → k (n + a.length) r = some v →
      starRun cls k n (a ++ r) = some v := by
  intro a
  induction a with
  | nil =>
    intro r n v _ hr hk
    cases r with
    | nil => simpa [starRun] using hk
    | cons c cs =>
      have := hr c rfl
      simp only [List.nil_append, starRun, this]
      simpa using hk
  | cons c cs ih =>
    intro r n v ha hr hk
    have hc : cls c = true := ha c (List.mem_cons_self _ _)
    have h1 := ih r (n + 1) v (fun x hx => ha x (List.mem_cons_of_mem _ hx)) hr
      (by simpa [Nat.add_assoc, Nat.add_comm 1] using hk)
    show starRun cls k n (c :: (cs ++ r)) = some v
    rw [starRun]
    simp only [hc, if_true, h1]

theorem Rx.run_sound {α : Type} (r : Rx) :
    ∀ (s : Text) (caps : Caps) (k : Nat → Text → Caps → Option α) (v : α),
      r.run s caps k = some v →
      ∃ x rest caps1, s = x ++ rest ∧ r.Sem x caps caps1 ∧ k x.length rest caps1 = some v := by
  induction r with
  | lit t =>
    intro s caps k v h
    simp only [Rx.run] at h
    by_cases hp : t.isPrefixOf s = true
    · simp only [hp, if_true] at h
      obtain ⟨rest, rfl⟩ := List.isPrefixOf_iff_prefix.1 hp
      exact ⟨t, rest, caps, rfl, .lit t caps, by simpa using h⟩
    · simp [hp] at h
  | star cls =>
    intro s caps k v h
    simp only [Rx.run] at h
    obtain ⟨a, r, hs, ha, hk⟩ := starRun_sound cls _ s 0 v h
    exact ⟨a, r, caps, hs, .star cls a caps ha, by simpa using hk⟩
  | plus cls =>
    intro s caps k v h
    cases s with
    | nil => simp [Rx.run] at h
    | cons c cs =>
      simp only [Rx.run] at h
      by_cases hc : cls c = true
      · simp only [hc, if_true] at h
        obtain ⟨a, r, hs, ha, hk⟩ := starRun_sound cls _ cs 1 v h
        refine ⟨c :: a, r, caps, by simp [hs], .plus cls (c :: a) caps (by simp) ?_, ?_⟩
        · intro x hx
          rcases List.mem_cons.1 hx with rfl | hx
          · exact hc
          · exact ha x hx
        · simpa [Nat.add_comm] using hk
      · simp [hc] at h
  | seq a b iha ihb =>
    intro s caps k v h
    simp only [Rx.run] at h
    obtain ⟨x, rest, c1, hs, hsa, hk⟩ := iha s caps _ v h
    obtain ⟨y, rest2, c2, hs2, hsb, hk2⟩ := ihb rest c1 _ v hk
    exact ⟨x ++ y, rest2, c2, by simp [hs, hs2], .seq hsa hsb, by simpa using hk2⟩
  | alt a b iha ihb =>
    intro s caps k v h
    simp only [Rx.run] at h
    cases hrec : a.run s caps k with
    | some w =>
      rw [hrec] at h
      obtain ⟨x, rest, c1, hs, hsa, hk⟩ := iha s caps k w hrec
      exact ⟨x, rest, c1, hs, .altL hsa, by rw [hk]; simpa using h⟩
    | none =>
      rw [hrec] at h
      obtain ⟨x, rest, c1, hs, hsb, hk⟩ := ihb s caps k v h
      exact ⟨x, rest, c1, hs, .altR hsb, hk⟩
  | group g a iha =>
    intro s caps k v h
    simp only [Rx.run] at h
    obtain ⟨x, rest, c1, hs, hsa, hk⟩ := iha s caps _ v h
    refine ⟨x, rest, _, hs, .group g hsa, ?_⟩
    simpa [hs] using hk

theorem Rx.run_complete {α : Type} {r : Rx} {x : Text} {caps caps1 : Caps}
    (hsem : r.Sem x caps caps1) :
    ∀ (rest : Text) (k : Nat → Text → Caps → Option α),
      (k x.length rest caps1).isSome = true → (r.run (x ++ rest) caps k).isSome = true := by
  induction hsem with
  | lit t c =>
    intro rest k hk
    have hp : t.isPrefixOf (t ++ rest) = true := List.isPrefixOf_iff_prefix.2 ⟨rest, rfl⟩
    simpa [Rx.run, hp] using hk
  | star cls x c hx =>
    intro rest k hk
    simp only [Rx.run]
    exact starRun_complete cls _ x rest 0 hx (by simpa using hk)
  | plus cls x c hne hx =>
    intro rest k hk
    cases x with
    | nil => exact absurd rfl hne
    | cons ch cs =>
      have hc : cls ch = true := hx ch (List.mem_cons_self _ _)
      simp only [List.cons_append, Rx.run, hc, if_true]
      exact starRun_complete cls _ cs rest 1 (fun y hy => hx y (List.mem_cons_of_mem _ hy))
        (by simpa [Nat.add_comm] using hk)
  | seq _ _ iha ihb =>
    intro rest k hk
    simp only [Rx.run, List.append_assoc]
    apply iha
    apply ihb
    simpa using hk
  | altL _ iha =>
    intro rest k hk
    simp only [Rx.run]
    have := iha rest k hk
    cases hrec : Rx.run _ (_ ++ rest) _ k with
    | some w => rfl
    | none => rw [hrec] at this; simp at this
  | altR _ ihb =>
    intro rest k hk
    simp only [Rx.run]
    have := ihb rest k hk
    rename_i a b x c c1 _
    cases hrec : Rx.run a (x ++ rest) c k with
    | some w => rfl
    | none => simpa using this
  | group g _ iha =>
    intro rest k hk
    simp only [Rx.run]
    apply iha
    simpa using hk

/-! ## Literal replacement -/

theorem replaceGo_skip (before after : Text) :
    ∀ (x r : Text), replaceGo before after x.length (x ++ r) = replaceGo before after 0 r := by
  intro x
  induction x with
  | nil =>
    intro r
    rfl
  | cons c cs ih =>
    intro r
    simpa [replaceGo] using ih r

theorem replace_nil {before : Text} (after : Text) (hb : before ≠ []) :
    replace [] before after = [] := by
  cases before with
  | nil => exact absurd rfl hb
  | cons b bs => rfl

theorem replace_append_self {before : Text} (after r : Text) (hb : before ≠ []) :
    replace (before ++ r) before after = after ++ replace r before after := by
  cases before with
  | nil => exact absurd rfl hb
  | cons b bs =>
    have hp : (b :: bs).isPrefixOf (b :: (bs ++ r)) = true :=
      List.isPrefixOf_iff_prefix.2 ⟨r, rfl⟩
    show replaceGo (b :: bs) after 0 (b :: (bs ++ r)) = after ++ replaceGo (b :: bs) after 0 r
    rw [replaceGo]
    simp only [hp, if_true, List.length_cons, Nat.add_sub_cancel]
    rw [replaceGo_skip]

theorem replace_cons_of_not {before : Text} (after : Text) (c : Char) (cs : Text)
    (hb : before ≠ []) (hp : ¬ before <+: c :: cs) :
    replace (c :: cs) before after = c :: replace cs before after := by
  cases before with
  | nil => exact absurd rfl hb
  | cons b bs =>
    have hp2 : (b :: bs).isPrefixOf (c :: cs) = false := by
      cases h : (b :: bs).isPrefixOf (c :: cs) with
      | false => rfl
      | true => exact absurd (List.isPrefixOf_iff_prefix.1 h) hp
    show replaceGo (b :: bs) after 0 (c :: cs) = c :: replaceGo (b :: bs) after 0 cs
    rw [replaceGo]
    simp [hp2]

/-- Induction along the scan of `replace`. -/
theorem replace_induction {P : Text → Prop} {before : Text} (hb : before ≠ []) (h0 : P [])
    (h1 : ∀ r, P r → P (before ++ r))
    (h2 : ∀ c cs, ¬ before <+: c :: cs → P cs → P (c :: cs)) : ∀ s, P s := by
  suffices H : ∀ n (s : Text), s.length = n → P s from fun s => H _ s rfl
  intro n
  induction n using Nat.strong_induction_on with
  | _ n ih =>
    intro s hn
    cases s with
    | nil => exact h0
    | cons c cs =>
      by_cases hp : before <+: c :: cs
      · obtain ⟨r, hr⟩ := hp
        rw [← hr]
        apply h1
        refine ih r.length ?_ r rfl
        have : (before ++ r).length = n := by rw [hr]; exact hn
        have hpos : 0 < before.length := List.length_pos.2 hb
        simp at this
        omega
      · exact h2 c cs hp (ih cs.length (by rw [← hn]; simp) cs rfl)

theorem prefix_of_prefix_append_cons {before u v : Text} {x : Char} (hx : x ∉ before)
    (h : before <+: u ++ x :: v) : before <+: u := by
  by_cases hl : before.length ≤ u.length
  · exact List.prefix_of_prefix_length_le h (List.prefix_append u (x :: v)) hl
  · exfalso
    have h2 : u ++ [x] <+: u ++ x :: v := ⟨v, by simp⟩
    have h3 : u ++ [x] <+: before :=
      List.prefix_of_prefix_length_le h2 h (by simp; omega)
    exact hx (h3.subset (by simp))

/-- A character that is not in `before` cuts the text into two parts that are
rewritten separately. -/
theorem replace_append_cons {before : Text} (after : Text) {x : Char} (hb : before ≠ [])
    (hx : x ∉ before) (v : Text) :
    ∀ u, replace (u ++ x :: v) before after
      = replace u before after ++ x :: replace v before after := by
  refine replace_induction (P := fun u => replace (u ++ x :: v) before after
      = replace u before after ++ x :: replace v before after) hb ?_ ?_ ?_
  · beta_reduce
    rw [replace_nil after hb, List.nil_append, List.nil_append]
    apply replace_cons_of_not after x v hb
    intro h
    cases before with
    | nil => exact hb rfl
    | cons b bs =>
      have := (List.cons_prefix_cons.1 h).1
      exact hx (by simp [this])
  · intro r ih
    beta_reduce at ih ⊢
    rw [List.append_assoc, replace_append_self after _ hb, ih, replace_append_self after _ hb,
      List.append_assoc]
  · intro c cs hp ih
    beta_reduce at ih ⊢
    rw [List.cons_append, replace_cons_of_not after c _ hb, ih, replace_cons_of_not after c cs hb hp,
      List.cons_append]
    intro h
    exact hp (prefix_of_prefix_append_cons (u := c :: cs) hx h)

theorem replace_of_absent {before : Text} (after : Text) (hb : before ≠ []) :
    ∀ s, ¬ before <:+: s → replace s before after = s := by
  refine replace_induction (P := fun s => ¬ before <:+: s → replace s before after = s) hb
    ?_ ?_ ?_
  · intro _
    exact replace_nil after hb
  · intro r _ h
    exact absurd ⟨[], r, rfl⟩ h
  · intro c cs hp ih h
    rw [replace_cons_of_not after c cs hb hp, ih]
    intro h2
    exact h (List.infix_cons h2)

theorem replace_append_of_head_not_mem {b : Char} {bs : Text} (after : Text) (s : Text) :
    ∀ u : Text, b ∉ u → replace (u ++ s) (b :: bs) after = u ++ replace s (b :: bs) after := by
  intro u
  induction u with
  | nil => intro _; rfl
  | cons c cs ih =>
    intro h
    rw [List.cons_append, replace_cons_of_not after c _ (by simp), ih, List.cons_append]
    · intro h2
      exact h (List.mem_cons_of_mem _ h2)
    · intro h2
      have := (List.cons_prefix_cons.1 h2).1
      exact h (by simp [this])

theorem mem_replace {before after : Text} (hb : before ≠ []) (y : Char) :
    ∀ s, y ∈ replace s before after → y ∈ s ∨ y ∈ after := by
  refine replace_induction (P := fun s => y ∈ replace s before after → y ∈ s ∨ y ∈ after) hb
    ?_ ?_ ?_
  · intro h
    rw [replace_nil after hb] at h
    exact Or.inl h
  · intro r ih h
    rw [replace_append_self after r hb] at h
    rcases List.mem_append.1 h with h | h
    · exact Or.inr h
    · rcases ih h with h | h
      · exact Or.inl (List.mem_append_right _ h)
      · exact Or.inr h
  · intro c cs hp ih h
    rw [replace_cons_of_not after c cs hb hp] at h
    rcases List.mem_cons.1 h with h | h
    · exact Or.inl (by simp [h])
    · rcases ih h with h | h
      · exact Or.inl (List.mem_cons_of_mem _ h)
      · exact Or.inr h

theorem infix_replace {before : Text} (after : Text) (hb : before ≠ []) :
    ∀ s, before <:+: s → after <:+: replace s before after := by
  refine replace_induction (P := fun s => before <:+: s → after <:+: replace s before after) hb
    ?_ ?_ ?_
  · intro h
    exact absurd (List.eq_nil_of_infix_nil h) hb
  · intro r _ _
    rw [replace_append_self after r hb]
    exact ⟨[], _, rfl⟩
  · intro c cs hp ih h
    rw [replace_cons_of_not after c cs hb hp]
    rcases List.infix_cons_iff.1 h with h | h
    · exact absurd h hp
    · exact List.infix_cons (ih h)

theorem length_replace_le {before after : Text} (hb : before ≠ [])
    (hl : after.length ≤ before.length) :
    ∀ s, (replace s before after).length ≤ s.length := by
  refine replace_induction (P := fun s => (replace s before after).length ≤ s.length) hb
    ?_ ?_ ?_
  · beta_reduce
    rw [replace_nil after hb]
  · intro r ih
    rw [replace_append_self after r hb, List.length_append, List.length_append]
    omega
  · intro c cs hp ih
    rw [replace_cons_of_not after c cs hb hp, List.length_cons, List.length_cons]
    omega

theorem length_replace_lt {before after : Text} (hb : before ≠ [])
    (hl : after.length < before.length) :
    ∀ s, before <:+: s → (replace s before after).length < s.length := by
  refine replace_induction
    (P := fun s => before <:+: s → (replace s before after).length < s.length) hb ?_ ?_ ?_
  · intro h
    exact absurd (List.eq_nil_of_infix_nil h) hb
  · intro r _ _
    have := length_replace_le hb (Nat.le_of_lt hl) r
    rw [replace_append_self after r hb, List.length_append, List.length_append]
    omega
  · intro c cs hp ih h
    rw [replace_cons_of_not after c cs hb hp, List.length_cons, List.length_cons]
    rcases List.infix_cons_iff.1 h with h | h
    · exact absurd h hp
    · have := ih h
      omega

theorem replace_self {before : Text} (hb : before ≠ []) :
    ∀ s, replace s before before = s := by
  refine replace_induction (P := fun s => replace s before before = s) hb ?_ ?_ ?_
  · exact replace_nil before hb
  · intro r ih
    rw [replace_append_self before r hb, ih]
  · intro c cs hp ih
    rw [replace_cons_of_not before c cs hb hp, ih]

/-- A character of the result that is neither in `before` nor in `after` marks
a cut of the source. -/
theorem replace_eq_append_cons {before after : Text} {x : Char} (hb : before ≠ [])
    (hxa : x ∉ after) :
    ∀ (s X Y : Text), replace s before after = X ++ x :: Y →
      ∃ u v, s = u ++ x :: v ∧ X = replace u before after ∧ Y = replace v before after := by
  refine replace_induction (P := fun s => ∀ X Y : Text, replace s before after = X ++ x :: Y →
      ∃ u v, s = u ++ x :: v ∧ X = replace u before after ∧ Y = replace v before after) hb
    ?_ ?_ ?_
  · intro X Y h
    rw [replace_nil after hb] at h
    simp at h
  · intro r ih X Y h
    rw [replace_append_self after r hb] at h
    rcases List.append_eq_append_iff.1 h with ⟨a', h1, h2⟩ | ⟨c', h1, h2⟩
    · obtain ⟨u, v, hr, hX, hY⟩ := ih a' Y h2
      refine ⟨before ++ u, v, by rw [hr, List.append_assoc], ?_, hY⟩
      rw [replace_append_self after u hb, h1, hX]
    · cases c' with
      | nil =>
        simp only [List.append_nil, List.nil_append] at h1 h2
        obtain ⟨u, v, hr, hX, hY⟩ := ih [] Y (by simpa using h2.symm)
        refine ⟨before ++ u, v, by rw [hr, List.append_assoc], ?_, hY⟩
        rw [replace_append_self after u hb, ← hX, List.append_nil, h1]
      | cons d ds =>
        exfalso
        simp only [List.cons_append, List.cons.injEq] at h2
        apply hxa
        rw [h1, h2.1]
        simp
  · intro c cs hp ih X Y h
    rw [replace_cons_of_not after c cs hb hp] at h
    cases X with
    | nil =>
      simp only [List.nil_append, List.cons.injEq] at h
      exact ⟨[], cs, by rw [h.1]; rfl, (replace_nil after hb).symm, h.2.symm⟩
    | cons d ds =>
      simp only [List.cons_append, List.cons.injEq] at h
      obtain ⟨u, v, hr, hX, hY⟩ := ih ds Y h.2
      refine ⟨c :: u, v, by rw [hr]; rfl, ?_, hY⟩
      rw [replace_cons_of_not after c u hb, ← hX, h.1]
      intro hpu
      apply hp
      rw [hr]
      exact hpu.trans (List.prefix_append (c :: u) (x :: v))

theorem split_of_not_mem (x : Char) : ∀ s : Text, x ∉ s → split x s = [s] := by
  intro s
  induction s with
  | nil => intro _; rfl
  | cons c cs ih =>
    intro h
    have hc : ¬ c = x := fun e => h (by simp [e])
    rw [split, if_neg hc, ih (fun h2 => h (List.mem_cons_of_mem _ h2))]

theorem split_append_cons (x : Char) (rest : Text) :
    ∀ p : Text, x ∉ p → split x (p ++ x :: rest) = p :: split x rest := by
  intro p
  induction p with
  | nil =>
    intro _
    simp [split]
  | cons c cs ih =>
    intro h
    have hc : ¬ c = x := fun e => h (by simp [e])
    rw [List.cons_append, split, if_neg hc, ih (fun h2 => h (List.mem_cons_of_mem _ h2))]

theorem not_mem_replace {before after : Text} {x : Char} (hb : before ≠ []) (hxa : x ∉ after)
    {s : Text} (hs : x ∉ s) : x ∉ replace s before after := by
  intro h
  rcases mem_replace hb x s h with h | h
  · exact hs h
  · exact hxa h

/-- Replacement acts piece by piece between characters that occur neither in
`before` nor in `after`. -/
theorem split_replace {before : Text} (after : Text) {x : Char} (hb : before ≠ [])
    (hx : x ∉ before) (hxa : x ∉ after) :
    ∀ s : Text, split x (replace s before after)
      = (split x s).map (fun p => replace p before after) := by
  suffices H : ∀ n (s : Text), s.length = n → split x (replace s before after)
      = (split x s).map (fun p => replace p before after) from fun s => H _ s rfl
  intro n
  induction n using Nat.strong_induction_on with
  | _ n ih =>
    intro s hn
    by_cases hmem : x ∈ s
    · obtain ⟨p, rest, hs, hp⟩ : ∃ p rest, s = p ++ x :: rest ∧ x ∉ p := by
        obtain ⟨p, rest, hs, hp⟩ := List.eq_append_cons_of_mem hmem
        exact ⟨p, rest, hs, hp⟩
      subst hs
      rw [replace_append_cons after hb hx, split_append_cons x _ _ (not_mem_replace hb hxa hp),
        split_append_cons x _ _ hp, List.map_cons,
        ih rest.length (by rw [← hn]; simp; omega) rest rfl]
    · rw [split_of_not_mem x s hmem, split_of_not_mem x _ (not_mem_replace hb hxa hmem)]
      rfl

/-! ## Anchored matching and search -/

theorem Rx.Sem.change_caps {r : Rx} {x : Text} {c c1 : Caps} (h : r.Sem x c c1) :
    ∀ d : Caps, ∃ d1, r.Sem x d d1 := by
  induction h with
  | lit t c => exact fun d => ⟨d, .lit t d⟩
  | star cls x c hx => exact fun d => ⟨d, .star cls x d hx⟩
  | plus cls x c hne hx => exact fun d => ⟨d, .plus cls x d hne hx⟩
  | seq _ _ iha ihb =>
    intro d
    obtain ⟨d1, h1⟩ := iha d
    obtain ⟨d2, h2⟩ := ihb d1
    exact ⟨d2, .seq h1 h2⟩
  | altL _ iha =>
    intro d
    obtain ⟨d1, h1⟩ := iha d
    exact ⟨d1, .altL h1⟩
  | altR _ ihb =>
    intro d
    obtain ⟨d1, h1⟩ := ihb d
    exact ⟨d1, .altR h1⟩
  | group g _ iha =>
    intro d
    obtain ⟨d1, h1⟩ := iha d
    exact ⟨_, .group g h1⟩

theorem Rx.matchAt_sound {r : Rx} {s : Text} {h : Hit} (hm : r.matchAt s = some h) :
    ∃ x rest caps1, s = x ++ rest ∧ r.Sem x (fun _ => []) caps1 ∧
      h = ⟨x.length, Function.update caps1 0 x⟩ := by
  obtain ⟨x, rest, caps1, hs, hsem, hk⟩ := Rx.run_sound r s _ _ h hm
  refine ⟨x, rest, caps1, hs, hsem, ?_⟩
  simp only [Option.some.injEq] at hk
  rw [← hk, hs, List.take_left']
  rfl

theorem Rx.matchAt_complete {r : Rx} {x : Text} (hx : r.Matches x) (rest : Text) :
    (r.matchAt (x ++ rest)).isSome = true := by
  obtain ⟨c, c1, h⟩ := hx
  obtain ⟨d1, h1⟩ := h.change_caps (fun _ => [])
  exact Rx.run_complete h1 rest _ rfl

theorem Rx.matchAt_none_of_not_occursIn {r : Rx} {s : Text} (h : ¬ r.occursIn s) :
    ∀ pre rest, s = pre ++ rest → r.matchAt rest = none := by
  intro pre rest hs
  cases hm : r.matchAt rest with
  | none => rfl
  | some hit =>
    obtain ⟨x, rest1, caps1, hx, hsem, _⟩ := Rx.matchAt_sound hm
    exact absurd ⟨pre, x, rest1, by rw [hs, hx, List.append_assoc], _, _, hsem⟩ h

theorem Rx.search_none {r : Rx} :
    ∀ (s : Text) (i : Nat), (∀ pre rest, s = pre ++ rest → r.matchAt rest = none) →
      r.search i s = none := by
  intro s
  induction s with
  | nil =>
    intro i h
    simp [Rx.search, h [] [] rfl]
  | cons c cs ih =>
    intro i h
    rw [Rx.search, h [] (c :: cs) rfl]
    exact ih (i + 1) (fun pre rest hs => h (c :: pre) rest (by rw [hs]; rfl))

theorem Rx.search_head {r : Rx} {s : Text} {h : Hit} (i : Nat) (hm : r.matchAt s = some h) :
    r.search i s = some (i, h) := by
  cases s with
  | nil => simp [Rx.search, hm]
  | cons c cs => simp [Rx.search, hm]

theorem Rx.search_sound {r : Rx} :
    ∀ (s : Text) (i j : Nat) (h : Hit), r.search i s = some (j, h) →
      ∃ pre rest, s = pre ++ rest ∧ j = i + pre.length ∧ r.matchAt rest = some h := by
  intro s
  induction s with
  | nil =>
    intro i j h hs
    cases hm : r.matchAt [] with
    | none => simp [Rx.search, hm] at hs
    | some h1 =>
      simp only [Rx.search, hm, Option.map_some', Option.some.injEq, Prod.mk.injEq] at hs
      exact ⟨[], [], rfl, by simp [hs.1], by rw [hm, hs.2]⟩
  | cons c cs ih =>
    intro i j h hs
    rw [Rx.search] at hs
    cases hm : r.matchAt (c :: cs) with
    | some h1 =>
      simp only [hm, Option.some.injEq, Prod.mk.injEq] at hs
      exact ⟨[], c :: cs, rfl, by simp [hs.1], by rw [hm, hs.2]⟩
    | none =>
      simp only [hm] at hs
      obtain ⟨pre, rest, h1, h2, h3⟩ := ih (i + 1) j h hs
      exact ⟨c :: pre, rest, by rw [h1]; rfl, by simp [h2]; omega, h3⟩

theorem Rx.search_complete {r : Rx} :
    ∀ (pre rest : Text) (i : Nat), (r.matchAt rest).isSome = true →
      (r.search i (pre ++ rest)).isSome = true := by
  intro pre
  induction pre with
  | nil =>
    intro rest i h
    cases hm : r.matchAt rest with
    | none => simp [hm] at h
    | some hit => simp [Rx.search_head i hm]
  | cons c cs ih =>
    intro rest i h
    rw [List.cons_append, Rx.search]
    cases hm : r.matchAt (c :: (cs ++ rest)) with
    | some hit => rfl
    | none => exact ih rest (i + 1) h

theorem indexOf_zero (s : Text) (r : Rx) : indexOf s r 0 = r.search 0 s := by
  simp [indexOf]

theorem Rx.replaceRx_skip (r : Rx) (after : Text) :
    ∀ (x rest : Text), r.replaceGo after x.length (x ++ rest) = r.replaceGo after 0 rest := by
  intro x
  induction x with
  | nil =>
    intro rest
    rfl
  | cons c cs ih =>
    intro rest
    simpa [Rx.replaceGo] using ih rest

/-! ## The character classes -/

theorem isSpace_blank (table : UnicodeTable) : isSpace table ' ' = true := rfl

theorem isWord_blank (table : UnicodeTable) : isWord table ' ' = false := rfl

theorem isSpace_dq (table : UnicodeTable) : isSpace table dq = false := rfl

/-- A character of the range U+0009 to U+000D is in no group. -/
theorem category_control (table : UnicodeTable) {c : Char} (h1 : 9 ≤ c.toNat)
    (h2 : c.toNat ≤ 13) : category table c = .other := by
  have hc : c = Char.ofNat c.toNat := (Char.ofNat_toNat c).symm
  have : c.toNat = 9 ∨ c.toNat = 10 ∨ c.toNat = 11 ∨ c.toNat = 12 ∨ c.toNat = 13 := by omega
  rcases this with h | h | h | h | h <;> rw [hc, h] <;> rfl

/-- No word character is white space. -/
theorem isSpace_of_isWord {table : UnicodeTable} {c : Char} (h : isWord table c = true) :
    isSpace table c = false := by
  by_cases hu : c = '_'
  · rw [hu]
    rfl
  · by_cases hr : 9 ≤ c.toNat ∧ c.toNat ≤ 13
    · have := category_control table hr.1 hr.2
      simp [isWord, hu, this] at h
    · have hd : (decide (9 ≤ c.toNat) && decide (c.toNat ≤ 13)) = false := by
        simpa using hr
      unfold isWord at h
      unfold isSpace
      rw [hd]
      cases hcat : category table c <;> simp [hcat, hu] at h ⊢

/-- No white space is a word character. -/
theorem isWord_of_isSpace {table : UnicodeTable} {c : Char} (h : isSpace table c = true) :
    isWord table c = false := by
  cases hw : isWord table c with
  | false => rfl
  | true => rw [isSpace_of_isWord hw] at h; exact absurd h (by decide)

theorem isSpace_rbracket (table : UnicodeTable) : isSpace table ']' = false := rfl

variable {table : UnicodeTable}

/-! ## Forward evaluation of the matcher -/

theorem Rx.run_lit {α : Type} (t rest : Text) (caps : Caps) (k : Nat → Text → Caps → Option α)
    : (Rx.lit t).run (t ++ rest) caps k = k t.length rest caps := by
  have hp : t.isPrefixOf (t ++ rest) = true := List.isPrefixOf_iff_prefix.2 ⟨rest, rfl⟩
  simp [Rx.run, hp]

theorem Rx.run_plus {α : Type} (cls : Char → Bool) (a r : Text) (caps : Caps)
    (k : Nat → Text → Caps → Option α) (v : α) (hne : a ≠ [])
    (ha : ∀ c ∈ a, cls c = true) (hr : ∀ c, r.head? = some c → cls c = false)
    (h : k a.length r caps = some v) : (Rx.plus cls).run (a ++ r) caps k = some v := by
  cases a with
  | nil => exact absurd rfl hne
  | cons c cs =>
    have hc : cls c = true := ha c (List.mem_cons_self _ _)
    simp only [List.cons_append, Rx.run, hc, if_true]
    exact starRun_greedy cls _ cs r 1 v (fun y hy => ha y (List.mem_cons_of_mem _ hy)) hr
      (by simpa [Nat.add_comm] using h)

theorem Rx.run_star {α : Type} (cls : Char → Bool) (a r : Text) (caps : Caps)
    (k : Nat → Text → Caps → Option α) (v : α)
    (ha : ∀ c ∈ a, cls c = true) (hr : ∀ c, r.head? = some c → cls c = false)
    (h : k a.length r caps = some v) : (Rx.star cls).run (a ++ r) caps k = some v := by
  simp only [Rx.run]
  exact starRun_greedy cls _ a r 0 v ha hr (by simpa using h)

theorem head_append_of_ne_nil {a r : Text} {c : Char} (ha : a ≠ [])
    (h : (a ++ r).head? = some c) : c ∈ a := by
  cases a with
  | nil => exact absurd rfl ha
  | cons x xs =>
    simp only [List.cons_append, List.head?_cons, Option.some.injEq] at h
    simp [h]

theorem ENTITY_SEARCH_matchAt (n v rest : Text) (hn : n ≠ [])
    (hnw : ∀ c ∈ n, isWord table c = true)
    (hv : v ≠ []) (hvq : dq ∉ v) :
    (ENTITY_SEARCH table).matchAt (declaration n v ++ rest) = some ⟨(declaration n v).length,
      Function.update (Function.update (Function.update (fun _ => []) 1 n) 2 v) 0
        (declaration n v)⟩ := by
  have e : declaration n v ++ rest = "<!ENTITY".toList ++ ([' '] ++ (n ++ ([' '] ++ ([dq] ++
      (v ++ ([dq, '>'] ++ rest)))))) := by
    simp [declaration]
  unfold Rx.matchAt
  rw [e]
  simp only [ENTITY_SEARCH, Rx.cat]
  rw [Rx.run, Rx.run_lit, Rx.run]
  apply Rx.run_plus _ _ _ _ _ _ (by simp) (by simp [isSpace_blank])
  · intro c hc
    exact isSpace_of_isWord (hnw c (head_append_of_ne_nil hn hc))
  rw [Rx.run, Rx.run]
  apply Rx.run_plus _ _ _ _ _ _ hn hnw (by simp [isWord_blank])
  rw [Rx.run]
  apply Rx.run_plus _ _ _ _ _ _ (by simp) (by simp [isSpace_blank]) (by simp [isSpace_dq])
  rw [Rx.run, Rx.run_lit, Rx.run, Rx.run]
  apply Rx.run_plus _ _ _ _ _ _ hv
  · intro c hc
    simp only [bne_iff_ne, ne_eq]
    rintro rfl
    exact hvq hc
  · simp [dq]
  rw [Rx.run_lit]
  have hl : "<!ENTITY".toList.length + ([' '].length + (n.length + ([' '].length +
      ([dq].length + (v.length + [dq, '>'].length))))) = (declaration n v).length := by
    simp [declaration]
    omega
  rw [hl, ← e, List.take_left' rfl, List.take_left' rfl, List.take_left' rfl]

/-! ## `ResolveCustomEntities` -/

theorem Rx.replaceGo_of_no_match {r : Rx} (after : Text) :
    ∀ s : Text, (∀ pre rest, s = pre ++ rest → r.matchAt rest = none) →
      r.replaceGo after 0 s = s := by
  intro s
  induction s with
  | nil => intro _; rfl
  | cons c cs ih =>
    intro h
    rw [Rx.replaceGo, h [] (c :: cs) rfl]
    simp only
    rw [ih (fun pre rest hs => h (c :: pre) rest (by rw [hs]; rfl))]

theorem not_occursIn_of_search_none {r : Rx} {s : Text} (h : r.search 0 s = none) :
    ¬ r.occursIn s := by
  rintro ⟨pre, x, post, hs, hx⟩
  have h1 := Rx.search_complete (r := r) pre (x ++ post) 0 (Rx.matchAt_complete hx post)
  rw [← List.append_assoc, ← hs, h] at h1
  simp at h1

theorem Rx.occursIn_of_substring {r : Rx} {x s : Text} (hx : r.Matches x) (h : x <:+: s) :
    r.occursIn s := by
  obtain ⟨pre, post, hs⟩ := h
  exact ⟨pre, x, post, hs.symm, hx⟩

/-- The texts that `\[\s*\]>` matches are the markers. -/
theorem SUBSET_END_matches {x : Text} : (SUBSET_END table).Matches x ↔ Marker table x := by
  constructor
  · rintro ⟨c, c1, h⟩
    simp only [SUBSET_END, Rx.cat] at h
    cases h with
    | seq h1 h2 =>
      cases h1
      cases h2 with
      | seq h3 h4 =>
        cases h3 with
        | star _ _ _ hw =>
          cases h4
          exact ⟨_, by simp, hw⟩
  · rintro ⟨w, rfl, hw⟩
    refine ⟨fun _ => [], fun _ => [], ?_⟩
    have := Rx.Sem.seq (Rx.Sem.lit ['['] (fun _ => []))
      (Rx.Sem.seq (Rx.Sem.star (isSpace table) w (fun _ => []) hw)
        (Rx.Sem.lit [']', '>'] (fun _ => [])))
    simpa [SUBSET_END, Rx.cat] using this

/-- The texts that `ENTITY_SEARCH` matches are the declarations. -/
theorem ENTITY_SEARCH_matches {x : Text} :
    (ENTITY_SEARCH table).Matches x ↔ Declaration table x := by
  constructor
  · rintro ⟨c, c1, h⟩
    simp only [ENTITY_SEARCH, Rx.cat] at h
    cases h with
    | seq h1 h2 =>
      cases h1
      cases h2 with
      | seq h3 h4 =>
        cases h3 with
        | plus _ _ _ hs1 hs1w =>
          cases h4 with
          | seq h5 h6 =>
            cases h5 with
            | group _ h5 =>
              cases h5 with
              | plus _ _ _ hn hnw =>
                cases h6 with
                | seq h7 h8 =>
                  cases h7 with
                  | plus _ _ _ hs2 hs2w =>
                    cases h8 with
                    | seq h9 h10 =>
                      cases h9
                      cases h10 with
                      | seq h11 h12 =>
                        cases h11 with
                        | group _ h11 =>
                          cases h11 with
                          | plus _ _ _ hv hvw =>
                            cases h12
                            refine ⟨_, _, _, _, rfl, hs1, hs1w, hn, hnw, hs2, hs2w, hv, ?_⟩
                            intro hq
                            have := hvw dq hq
                            simp at this
  · rintro ⟨s1, n, s2, v, rfl, hs1, hs1w, hn, hnw, hs2, hs2w, hv, hvq⟩
    have hvw : ∀ ch ∈ v, (ch != dq) = true := by
      intro ch hch
      simp only [bne_iff_ne, ne_eq]
      rintro rfl
      exact hvq hch
    have := Rx.Sem.seq (Rx.Sem.lit "<!ENTITY".toList (fun _ => []))
      (Rx.Sem.seq (Rx.Sem.plus (isSpace table) s1 _ hs1 hs1w)
        (Rx.Sem.seq (Rx.Sem.group 1 (Rx.Sem.plus (isWord table) n _ hn hnw))
          (Rx.Sem.seq (Rx.Sem.plus (isSpace table) s2 _ hs2 hs2w)
            (Rx.Sem.seq (Rx.Sem.lit [dq] _)
              (Rx.Sem.seq (Rx.Sem.group 2 (Rx.Sem.plus (fun c => c != dq) v _ hv hvw))
                (Rx.Sem.lit [dq, '>'] _))))))
    exact ⟨fun _ => [], _, by simpa [ENTITY_SEARCH, Rx.cat] using this⟩

/-- A text without declaration holds no match of `ENTITY_SEARCH`. -/
theorem not_occursIn_of_no_declaration {t : Text}
    (h : ∀ x, Declaration table x → ¬ x <:+: t) : ¬ (ENTITY_SEARCH table).occursIn t := by
  rintro ⟨pre, x, post, hs, hx⟩
  exact h x (ENTITY_SEARCH_matches.1 hx) ⟨pre, post, hs.symm⟩

theorem no_declaration_of_not_occursIn {t : Text} (h : ¬ (ENTITY_SEARCH table).occursIn t) :
    ∀ x, Declaration table x → ¬ x <:+: t :=
  fun _ hx hi => h (Rx.occursIn_of_substring (ENTITY_SEARCH_matches.2 hx) hi)

theorem no_marker_of_not_occursIn {t : Text} (h : ¬ (SUBSET_END table).occursIn t) :
    ∀ m, Marker table m → ¬ m <:+: t :=
  fun _ hm hi => h (Rx.occursIn_of_substring (SUBSET_END_matches.2 hm) hi)

theorem markersDeleted_replaceGo :
    ∀ s : Text, MarkersDeleted table s ((SUBSET_END table).replaceGo [] 0 s) := by
  suffices H : ∀ n (s : Text), s.length = n →
      MarkersDeleted table s ((SUBSET_END table).replaceGo [] 0 s) from
    fun s => H _ s rfl
  intro n
  induction n using Nat.strong_induction_on with
  | _ n ih =>
    intro s hn
    cases s with
    | nil => exact .done
    | cons c cs =>
      rw [Rx.replaceGo]
      cases hm : (SUBSET_END table).matchAt (c :: cs) with
      | none =>
        simp only
        refine .keep c cs _ ?_ (ih cs.length (by rw [← hn]; simp) cs rfl)
        rintro m hmm ⟨rest, hrest⟩
        have := Rx.matchAt_complete (SUBSET_END_matches.2 hmm) rest
        rw [hrest, hm] at this
        simp at this
      | some hit =>
        obtain ⟨x, rest, caps1, hx, hsem, hhit⟩ := Rx.matchAt_sound hm
        have hmk : Marker table x := SUBSET_END_matches.1 ⟨_, _, hsem⟩
        obtain ⟨w, hw, hws⟩ := id hmk
        subst hw
        simp only [List.cons_append, List.cons.injEq] at hx
        obtain ⟨rfl, rfl⟩ := hx
        subst hhit
        have := Rx.replaceRx_skip (SUBSET_END table) [] (w ++ [']', '>']) rest
        show MarkersDeleted table _
          ([] ++ (SUBSET_END table).replaceGo [] (w ++ [']', '>']).length
            (w ++ [']', '>'] ++ rest))
        rw [this]
        have hd := MarkersDeleted.marker ('[' :: (w ++ [']', '>'])) rest _ hmk
          (ih rest.length (by rw [← hn]; simp; omega) rest rfl)
        simpa using hd

theorem declarations_of_not_occursIn (fuel : Nat) {text : Text}
    (h : ¬ (ENTITY_SEARCH table).occursIn text) (i : Nat) (es : Entities) :
    ResolveCustomEntities.declarations table (fuel + 1) i es text = some (es, text) := by
  have hs : indexOf text (ENTITY_SEARCH table) i = none := by
    unfold indexOf
    split
    · apply Rx.search_none
      intro pre rest hpr
      exact Rx.matchAt_none_of_not_occursIn h (text.take i ++ pre) rest
        (by rw [List.append_assoc, ← hpr, List.take_append_drop])
    · rfl
  simp [ResolveCustomEntities.declarations, hs]

theorem space_run_unique : ∀ (a b x y : Text), (∀ c ∈ a, isSpace table c = true) →
    (∀ c ∈ b, isSpace table c = true) → a ++ ']' :: x = b ++ ']' :: y → a = b ∧ x = y := by
  intro a
  induction a with
  | nil =>
    intro b x y _ hb h
    cases b with
    | nil => simpa using h
    | cons c cs =>
      simp only [List.nil_append, List.cons_append, List.cons.injEq] at h
      have := hb c (List.mem_cons_self _ _)
      rw [← h.1, isSpace_rbracket] at this
      exact absurd this (by decide)
  | cons c cs ih =>
    intro b x y ha hb h
    cases b with
    | nil =>
      simp only [List.nil_append, List.cons_append, List.cons.injEq] at h
      have := ha c (List.mem_cons_self _ _)
      rw [h.1, isSpace_rbracket] at this
      exact absurd this (by decide)
    | cons d ds =>
      simp only [List.cons_append, List.cons.injEq] at h
      obtain ⟨h1, h2⟩ := ih ds x y (fun z hz => ha z (List.mem_cons_of_mem _ hz))
        (fun z hz => hb z (List.mem_cons_of_mem _ hz)) h.2
      exact ⟨by rw [h.1, h1], h2⟩

/-- At most one marker starts at a given place. -/
theorem marker_unique {m1 m2 r1 r2 : Text} (h1 : Marker table m1)
    (h2 : Marker table m2) (h : m1 ++ r1 = m2 ++ r2) : m1 = m2 ∧ r1 = r2 := by
  obtain ⟨w1, rfl, hw1⟩ := h1
  obtain ⟨w2, rfl, hw2⟩ := h2
  simp only [List.cons_append, List.append_assoc, List.cons.injEq, true_and,
    List.nil_append] at h
  obtain ⟨e1, e2⟩ := space_run_unique w1 w2 _ _ hw1 hw2 h
  simp only [List.cons.injEq, true_and] at e2
  exact ⟨by rw [e1], e2⟩

/-- `MarkersDeleted` determines its result. -/
theorem MarkersDeleted.unique {s o1 o2 : Text} (h1 : MarkersDeleted table s o1)
    (h2 : MarkersDeleted table s o2) : o1 = o2 := by
  induction h1 generalizing o2 with
  | done =>
    generalize hs : ([] : Text) = s at h2
    cases h2 with
    | done => rfl
    | marker m rest out hm _ =>
      obtain ⟨w, rfl, _⟩ := hm
      simp at hs
    | keep c cs out _ _ => simp at hs
  | marker m rest out hm _ ih =>
    generalize hs : m ++ rest = s at h2
    cases h2 with
    | done =>
      obtain ⟨w, rfl, _⟩ := hm
      simp at hs
    | marker m2 rest2 out2 hm2 hd2 =>
      obtain ⟨_, e⟩ := marker_unique hm hm2 hs
      exact ih (e ▸ hd2)
    | keep c cs out2 hno _ =>
      exact absurd ⟨rest, hs⟩ (hno m hm)
  | keep c cs out hno _ ih =>
    generalize hs : c :: cs = s at h2
    cases h2 with
    | done => simp at hs
    | marker m2 rest2 out2 hm2 _ =>
      exact absurd ⟨rest2, hs.symm⟩ (hno m2 hm2)
    | keep c2 cs2 out2 _ hd2 =>
      simp only [List.cons.injEq] at hs
      obtain ⟨rfl, rfl⟩ := hs
      rw [ih hd2]

/-- C8: on a text in which no substring is a declaration `<!ENTITY name "value">`
(white space and word characters as `QRegExp` reads `\s` and `\w`, for every
Unicode table), `ResolveCustomEntities` returns, with one unit of fuel or more
and in every iteration order of the entity table, the text with every marker
`[`, white space, `]>` deleted and every other character kept; that text is the
only one `MarkersDeleted` allows.  If the text holds no marker either, the
result is the text itself. -/
theorem ResolveCustomEntities_no_declaration (table : UnicodeTable) (order : KeyOrder)
    (fuel : Nat) (text : Text) (h : ∀ x, Declaration table x → ¬ x <:+: text) :
    (∃ out, ResolveCustomEntities table order (fuel + 1) text = some out ∧
      MarkersDeleted table text out ∧ ∀ o, MarkersDeleted table text o → o = out) ∧
    ((∀ m, Marker table m → ¬ m <:+: text) →
      ResolveCustomEntities table order (fuel + 1) text = some text) := by
  have hk : order.keys [] = [] := List.Perm.eq_nil (order.perm [])
  have hocc := not_occursIn_of_no_declaration h
  have hr : ResolveCustomEntities table order (fuel + 1) text
      = some ((SUBSET_END table).replaceGo [] 0 text) := by
    simp [ResolveCustomEntities, declarations_of_not_occursIn fuel hocc, hk, replaceRx]
  refine ⟨⟨_, hr, markersDeleted_replaceGo text,
    fun o ho => ho.unique (markersDeleted_replaceGo text)⟩, ?_⟩
  intro hm
  have hno : ¬ (SUBSET_END table).occursIn text := by
    rintro ⟨pre, x, post, hs, hx⟩
    exact hm x (SUBSET_END_matches.1 hx) ⟨pre, post, hs.symm⟩
  rw [hr, Rx.replaceGo_of_no_match [] text (Rx.matchAt_none_of_not_occursIn hno)]

/-- C8, witness: the text `a [`, a no-break space, `]> é` holds no declaration;
the marker with the no-break space is deleted. -/
theorem ResolveCustomEntities_no_declaration_witness :
    (∀ x, Declaration latin1 x → ¬ x <:+: "a [\u00a0]> é".toList) ∧
    ResolveCustomEntities latin1 insertionOrder 1 "a [\u00a0]> é".toList = some "a  é".toList ∧
    ((∃ out, ResolveCustomEntities latin1 insertionOrder 1 "a [\u00a0]> é".toList = some out ∧
        MarkersDeleted latin1 "a [\u00a0]> é".toList out ∧
        ∀ o, MarkersDeleted latin1 "a [\u00a0]> é".toList o → o = out) ∧
      ((∀ m, Marker latin1 m → ¬ m <:+: "a [\u00a0]> é".toList) →
        ResolveCustomEntities latin1 insertionOrder 1 "a [\u00a0]> é".toList
          = some "a [\u00a0]> é".toList)) :=
  ⟨no_declaration_of_not_occursIn (not_occursIn_of_search_none (by rfl)), by rfl,
    ResolveCustomEntities_no_declaration latin1 insertionOrder 0 "a [\u00a0]> é".toList
      (no_declaration_of_not_occursIn (not_occursIn_of_search_none (by rfl)))⟩

theorem declaration_matches {n v : Text} (hn : n ≠ []) (hnw : ∀ c ∈ n, isWord table c = true)
    (hv : v ≠ []) (hvq : dq ∉ v) : (ENTITY_SEARCH table).Matches (declaration n v) := by
  obtain ⟨x, rest, caps1, hx, hsem, hhit⟩ :=
    Rx.matchAt_sound (ENTITY_SEARCH_matchAt n v [] hn hnw hv hvq)
  have hlen : (declaration n v).length = x.length := congrArg Hit.len hhit
  have : declaration n v = x := (List.append_inj hx hlen).1
  rw [this]
  exact ⟨_, _, hsem⟩

theorem ENTITY_SEARCH_head {x : Text} (h : (ENTITY_SEARCH table).Matches x) :
    ∃ y, x = '<' :: y := by
  obtain ⟨c, c1, h⟩ := h
  simp only [ENTITY_SEARCH, Rx.cat] at h
  cases h with
  | seq h1 h2 =>
    cases h1
    exact ⟨_, rfl⟩

/-- A pattern whose matches all begin with `ch` does not occur in `u ++ t` when
`ch` is not in `u` and the pattern does not occur in `t`. -/
theorem Rx.not_occursIn_append {r : Rx} {ch : Char}
    (hr : ∀ x, r.Matches x → ∃ y, x = ch :: y) {t : Text} (ht : ¬ r.occursIn t) :
    ∀ u : Text, ch ∉ u → ¬ r.occursIn (u ++ t) := by
  intro u
  induction u with
  | nil => intro _; exact ht
  | cons c cs ih =>
    rintro hc ⟨pre, x, post, hs, hx⟩
    cases pre with
    | nil =>
      obtain ⟨y, rfl⟩ := hr x hx
      simp only [List.nil_append, List.cons_append, List.cons.injEq] at hs
      exact hc (by simp [hs.1])
    | cons p ps =>
      simp only [List.cons_append, List.cons.injEq] at hs
      exact ih (fun h => hc (List.mem_cons_of_mem _ h)) ⟨ps, x, post, by simp [hs.2], hx⟩

theorem SUBSET_END_matchAt_none {s : Text} (h : '[' ∉ s) :
    ∀ pre rest, s = pre ++ rest → (SUBSET_END table).matchAt rest = none := by
  intro pre rest hs
  cases rest with
  | nil => rfl
  | cons c cs =>
    have hc : c ≠ '[' := by
      rintro rfl
      exact h (by simp [hs])
    have : ('[' == c) = false := by simpa using hc.symm
    simp [Rx.matchAt, SUBSET_END, Rx.cat, Rx.run, List.isPrefixOf, this]

theorem replaceRx_marker (t : Text) (h : '[' ∉ t) :
    replaceRx ("[ ]>".toList ++ t) (SUBSET_END table) [] = t := by
  have hm : ((SUBSET_END table).matchAt ("[ ]>".toList ++ t)).map Hit.len = some 4 := by
    simp [Rx.matchAt, SUBSET_END, Rx.cat, Rx.run, starRun, isSpace_blank, isSpace_rbracket,
      List.isPrefixOf]
  cases hh : (SUBSET_END table).matchAt ("[ ]>".toList ++ t) with
  | none => rw [hh] at hm; simp at hm
  | some hit =>
    rw [hh] at hm
    simp only [Option.map_some', Option.some.injEq] at hm
    show (SUBSET_END table).replaceGo [] 0 ('[' :: ' ' :: ']' :: '>' :: t) = t
    rw [Rx.replaceGo]
    have hh2 : (SUBSET_END table).matchAt ('[' :: ' ' :: ']' :: '>' :: t) = some hit := hh
    rw [hh2]
    simp only [hm, List.nil_append]
    rw [Rx.replaceGo, Rx.replaceGo, Rx.replaceGo]
    exact Rx.replaceGo_of_no_match [] t (SUBSET_END_matchAt_none h)

theorem declarations_step (fuel : Nat) (n v rest : Text) (es : Entities) (hn : n ≠ [])
    (hnw : ∀ c ∈ n, isWord table c = true) (hv : v ≠ []) (hvq : dq ∉ v) :
    ResolveCustomEntities.declarations table (fuel + 1) 0 es (declaration n v ++ rest)
      = ResolveCustomEntities.declarations table fuel 0 (es.set ('&' :: (n ++ [';'])) v)
          (replace rest (declaration n v) []) := by
  have hd : declaration n v ≠ [] := by simp [declaration]
  rw [ResolveCustomEntities.declarations, indexOf_zero,
    Rx.search_head 0 (ENTITY_SEARCH_matchAt n v rest hn hnw hv hvq)]
  simp only [Function.update]
  simp only [OfNat.ofNat_ne_zero, ↓reduceDIte, OfNat.ofNat_ne_one, OfNat.one_ne_ofNat]
  rw [replace_append_self [] rest hd]
  simp

/-- C7: for every Unicode table, every name `n` of one or more word characters
(as `QRegExp` reads `\w`), every non-empty value `v` without double quote and
without `[`, and every body `t` in which no substring is a declaration and no
`[` occurs, `ResolveCustomEntities` on `<!ENTITY n "v">[ ]>` followed by `t`
returns, with two units of fuel or more and in every iteration order of the
entity table, `t` with every occurrence of `&n;` replaced by `v`. -/
theorem ResolveCustomEntities_one_entity (table : UnicodeTable) (order : KeyOrder)
    (fuel : Nat) (n v t : Text)
    (hn : n ≠ []) (hnw : ∀ c ∈ n, isWord table c = true) (hv : v ≠ []) (hvq : dq ∉ v)
    (hvb : '[' ∉ v) (ht : ∀ x, Declaration table x → ¬ x <:+: t) (htb : '[' ∉ t) :
    ResolveCustomEntities table order (fuel + 2) (declaration n v ++ "[ ]>".toList ++ t)
      = some (replace t ('&' :: (n ++ [';'])) v) := by
  have hd : declaration n v ≠ [] := by simp [declaration]
  have hocc : ¬ (ENTITY_SEARCH table).occursIn ("[ ]>".toList ++ t) :=
    Rx.not_occursIn_append (fun x hx => ENTITY_SEARCH_head hx)
      (not_occursIn_of_no_declaration ht) _ (by decide)
  have hrep : replace ("[ ]>".toList ++ t) (declaration n v) [] = "[ ]>".toList ++ t :=
    replace_of_absent [] hd _
      (fun h => hocc (Rx.occursIn_of_substring (declaration_matches hn hnw hv hvq) h))
  have hkeys : order.keys [('&' :: (n ++ [';']), v)] = ['&' :: (n ++ [';'])] :=
    List.perm_singleton.1 (order.perm _)
  have hno : '[' ∉ replace t ('&' :: (n ++ [';'])) v := by
    intro h
    rcases mem_replace (by simp) _ _ h with h | h
    · exact htb h
    · exact hvb h
  unfold ResolveCustomEntities
  rw [List.append_assoc, declarations_step (fuel + 1) n v _ [] hn hnw hv hvq, hrep,
    declarations_of_not_occursIn fuel hocc]
  simp only [Entities.set, hkeys, List.foldl_cons, List.foldl_nil, Entities.get,
    List.lookup_cons, beq_self_eq_true, Option.getD_some]
  rw [replace_append_of_head_not_mem v t _ (by decide), replaceRx_marker _ hno]

/-- C7, witness: the example of the specification,
`<!ENTITY foo "bar">[ ]>Hello &foo;!`, and the same with the name `é`. -/
theorem ResolveCustomEntities_one_entity_witness :
    ResolveCustomEntities latin1 insertionOrder 2
        "<!ENTITY foo \"bar\">[ ]>Hello &foo;!".toList = some "Hello bar!".toList ∧
    ResolveCustomEntities latin1 insertionOrder 2
        "<!ENTITY é \"bar\">[ ]>Hello &é;!".toList = some "Hello bar!".toList :=
  ⟨ResolveCustomEntities_one_entity latin1 insertionOrder 0 "foo".toList "bar".toList
    "Hello &foo;!".toList (by decide) (by decide) (by decide) (by decide) (by decide)
    (no_declaration_of_not_occursIn (not_occursIn_of_search_none (by rfl))) (by decide),
   ResolveCustomEntities_one_entity latin1 insertionOrder 0 "é".toList "bar".toList
    "Hello &é;!".toList (by decide) (by decide) (by decide) (by decide) (by decide)
    (no_declaration_of_not_occursIn (not_occursIn_of_search_none (by rfl))) (by decide)⟩

/-! ### Two entities -/

/-- The output of the counterexample of C9 is the same for every Unicode table:
its text is ASCII. -/
theorem ResolveCustomEntities_reexpands_any (table : UnicodeTable) :
    ResolveCustomEntities table insertionOrder 3
        "<!ENTITY a \"x&b;y\"><!ENTITY b \"B\">[ ]>Hello &a;!".toList
      = some "Hello xBy!".toList := by
  rfl

/-! ## `StripFilesFromAnchors` -/

theorem contains_singleton (x : Char) : ∀ s : Text, contains s [x] = true ↔ x ∈ s := by
  intro s
  induction s with
  | nil => simp [contains, List.isPrefixOf]
  | cons c cs ih =>
    simp only [contains, List.isPrefixOf, Bool.and_true, Bool.or_eq_true, beq_iff_eq, ih,
      List.mem_cons]

theorem split_head (sep : Char) :
    ∀ s : Text, (split sep s).head? = some (s.takeWhile (fun c => c != sep)) := by
  intro s
  induction s with
  | nil => rfl
  | cons c cs ih =>
    by_cases hc : c = sep
    · simp [split, hc]
    · have hne : (c != sep) = true := by simpa using hc
      cases hsp : split sep cs with
      | nil => rw [hsp] at ih; simp at ih
      | cons p ps =>
        rw [hsp] at ih
        simp only [List.head?_cons, Option.some.injEq] at ih
        simp [split, hc, hsp, List.takeWhile, hne, ih]

theorem split_second (sep : Char) :
    ∀ s : Text, sep ∈ s →
      (split sep s)[1]? = some ((((s.dropWhile (fun c => c != sep)).drop 1)).takeWhile
        (fun c => c != sep)) := by
  intro s
  induction s with
  | nil => intro h; simp at h
  | cons c cs ih =>
    intro h
    by_cases hc : c = sep
    · subst hc
      have := split_head c cs
      simp only [split, if_true, List.getElem?_cons_succ, List.dropWhile, bne_self_eq_false,
        List.drop_succ_cons, List.drop_zero]
      rw [← this]
      cases split c cs <;> simp
    · have hne : (c != sep) = true := by simpa using hc
      have hmem : sep ∈ cs := by
        rcases List.mem_cons.1 h with h | h
        · exact absurd h.symm hc
        · exact h
      have := ih hmem
      cases hsp : split sep cs with
      | nil => rw [hsp] at this; simp at this
      | cons p ps =>
        rw [hsp] at this
        simp only [split, hc, if_false, hsp, List.dropWhile, hne]
        simpa using this

/-- The loop body of `StripFilesFromAnchors` on an anchor whose `href` is a
relative URL with at least one `#`: the new `href` is `#` followed by the part of
the old value between its first `#` and its second `#` (up to the end when there
is no second one); so when the substring after the first `#` holds no further
`#`, the new value is `#` followed by that whole substring. -/
theorem StripFilesFromAnchors_anchor_fragment (isRelative : Text → Bool) (element : Element)
    (href : Text) (h1 : element.attributes.lookup "href".toList = some href)
    (h2 : isRelative href = true) (h3 : '#' ∈ href) :
    StripFilesFromAnchors.anchor isRelative element
      = some (element.setAttribute "href".toList
          ('#' :: (afterFirstHash href).takeWhile (fun c => c != '#'))) ∧
    ('#' ∉ afterFirstHash href →
      StripFilesFromAnchors.anchor isRelative element
        = some (element.setAttribute "href".toList ('#' :: afterFirstHash href))) := by
  have hattr : element.attribute "href".toList = href := by
    rw [Element.attribute, h1]
    rfl
  have hhas : element.hasAttribute "href".toList = true := by
    rw [Element.hasAttribute, h1]
    rfl
  have hmain : StripFilesFromAnchors.anchor isRelative element
      = some (element.setAttribute "href".toList
          ('#' :: (afterFirstHash href).takeWhile (fun c => c != '#'))) := by
    unfold StripFilesFromAnchors.anchor
    rw [hattr, hhas, h2, (contains_singleton '#' href).2 h3, split_second '#' href h3]
    rfl
  refine ⟨hmain, fun hno => ?_⟩
  rw [hmain]
  have : (afterFirstHash href).takeWhile (fun c => c != '#') = afterFirstHash href := by
    apply List.takeWhile_eq_self_iff.2
    intro c hc
    simp only [bne_iff_ne, ne_eq]
    rintro rfl
    exact hno hc
  rw [this]

/-- The example of the specification: `chapter01.html#sec2` becomes `#sec2`. -/
theorem StripFilesFromAnchors_anchor_fragment_witness :
    StripFilesFromAnchors.anchor QUrl.isRelative
        ⟨['a'], [("href".toList, "chapter01.html#sec2".toList)]⟩
      = some ⟨['a'], [("href".toList, "#sec2".toList)]⟩ :=
  (StripFilesFromAnchors_anchor_fragment QUrl.isRelative
    ⟨['a'], [("href".toList, "chapter01.html#sec2".toList)]⟩ "chapter01.html#sec2".toList
    (by decide) (by decide) (by decide)).2 (by decide)

/-- C6, failing input: an anchor with the relative reference
`chapter01.html#sec2#top`, which has two `#`.  The substring after the first `#`
is `sec2#top`, but `split( "#" )[ 1 ]` is `sec2` only and the anchor gets `#sec2`. -/
theorem StripFilesFromAnchors_second_hash :
    QUrl.isRelative "chapter01.html#sec2#top".toList = true ∧
    afterFirstHash "chapter01.html#sec2#top".toList = "sec2#top".toList ∧
    StripFilesFromAnchors QUrl.isRelative
        [⟨['a'], [("href".toList, "chapter01.html#sec2#top".toList)]⟩]
      = some [⟨['a'], [("href".toList, "#sec2".toList)]⟩] := by
  decide

/-! ## `LoadFolderStructure` -/

theorem contains_of_infix : ∀ (s pat : Text), pat <:+: s → contains s pat = true := by
  intro s
  induction s with
  | nil =>
    intro pat h
    rw [List.eq_nil_of_infix_nil h]
    rfl
  | cons c cs ih =>
    intro pat h
    rw [contains]
    rcases List.infix_cons_iff.1 h with h | h
    · rw [List.isPrefixOf_iff_prefix.2 h]
      rfl
    · rw [ih pat h]
      simp

theorem split_ne_nil (sep : Char) (s : Text) : split sep s ≠ [] := by
  have := split_head sep s
  intro h
  rw [h] at this
  simp at this

theorem afterLast_suffix (sep : Char) : ∀ s : Text, afterLast sep s <:+ s := by
  intro s
  induction s with
  | nil => exact ⟨[], rfl⟩
  | cons c cs ih =>
    by_cases hmem : sep ∈ c :: cs
    · unfold afterLast at ih ⊢
      by_cases hc : c = sep
      · cases hsp : split sep cs with
        | nil => exact absurd hsp (split_ne_nil sep cs)
        | cons p ps =>
          rw [hsp] at ih
          rw [split, if_pos hc, hsp]
          simp only [List.getLast?_cons_cons]
          exact ih.trans (List.suffix_cons c cs)
      · have hcs : sep ∈ cs := by
          rcases List.mem_cons.1 hmem with h | h
          · exact absurd h.symm hc
          · exact h
        have h2 := split_second sep cs hcs
        cases hsp : split sep cs with
        | nil => exact absurd hsp (split_ne_nil sep cs)
        | cons p ps =>
          cases ps with
          | nil => rw [hsp] at h2; simp at h2
          | cons q qs =>
            rw [hsp] at ih
            rw [split, if_neg hc, hsp]
            simp only [List.getLast?_cons_cons] at ih ⊢
            exact ih.trans (List.suffix_cons c cs)
    · unfold afterLast
      rw [split_of_not_mem sep _ hmem]
      exact List.suffix_refl _

theorem afterLast_cons_suffix (sep : Char) {s : Text} (h : sep ∈ s) :
    sep :: afterLast sep s <:+ s := by
  induction s with
  | nil => simp at h
  | cons c cs ih =>
    unfold afterLast at ih ⊢
    by_cases hc : c = sep
    · by_cases hcs : sep ∈ cs
      · cases hsp : split sep cs with
        | nil => exact absurd hsp (split_ne_nil sep cs)
        | cons p ps =>
          rw [hsp] at ih
          rw [split, if_pos hc, hsp]
          simp only [List.getLast?_cons_cons]
          exact (ih hcs).trans (List.suffix_cons c cs)
      · rw [split, if_pos hc, split_of_not_mem sep cs hcs, hc]
        exact List.suffix_refl _
    · have hcs : sep ∈ cs := by
        rcases List.mem_cons.1 h with h | h
        · exact absurd h.symm hc
        · exact h
      have h2 := split_second sep cs hcs
      cases hsp : split sep cs with
      | nil => exact absurd hsp (split_ne_nil sep cs)
      | cons p ps =>
        cases ps with
        | nil => rw [hsp] at h2; simp at h2
        | cons q qs =>
          rw [hsp] at ih
          rw [split, if_neg hc, hsp]
          simp only [List.getLast?_cons_cons] at ih ⊢
          exact (ih hcs).trans (List.suffix_cons c cs)

/-- A path whose suffix is `css` contains `.css`. -/
theorem contains_css_of_suffix {path : Text} (h : suffix path = "css".toList) :
    contains path ".css".toList = true := by
  unfold suffix at h
  by_cases hdot : (fileName path).contains '.' = true
  · rw [if_pos hdot] at h
    have hmem : '.' ∈ fileName path := by simpa using hdot
    have h1 := afterLast_cons_suffix '.' hmem
    rw [h] at h1
    have h2 : fileName path <:+ path := afterLast_suffix '/' path
    exact contains_of_infix _ _ ((h1.trans h2).isInfix)
  · rw [if_neg hdot] at h
    exact absurd h (by decide)

/-- One round of the loop of `LoadFolderStructure` on a match whose file has the
suffix `css`: every occurrence of the matched tag gives way to the style block
with the text of the file, and nothing is handed to the content folder. -/
theorem LoadFolderStructure_loop_css (env : Env) (ufuel fuel index : Nat) (book : Book)
    (found : Nat) (hit : Hit)
    (hidx : indexOf book.source (fileurl table) index = some (found, hit))
    (hcss : suffix (env.resolve (hit.cap 1)) = "css".toList) :
    LoadFolderStructure.loop table env ufuel (fuel + 1) index book
      = LoadFolderStructure.loop table env ufuel fuel (found + hit.len)
          ⟨replace book.source (hit.cap 0)
            ("<style type=\"text/css\">\n".toList ++ env.readFile (env.resolve (hit.cap 1))
              ++ "\n</style>\n".toList), book.mainfolder⟩ := by
  rw [LoadFolderStructure.loop, hidx]
  simp only [contains_css_of_suffix hcss, Bool.not_true, Bool.false_eq_true, if_false,
    CreateStyleTag, hcss, if_true]

theorem rep_length (x : Text) : ∀ n, (rep x n).length = n * x.length := by
  intro n
  induction n with
  | zero => simp [rep]
  | succ n ih => simp [rep, ih, Nat.succ_mul, Nat.add_comm]

theorem rep_succ_right (x : Text) : ∀ n, rep x (n + 1) = rep x n ++ x := by
  intro n
  induction n with
  | zero => simp [rep]
  | succ n ih =>
    show x ++ rep x (n + 1) = (x ++ rep x n) ++ x
    rw [ih, List.append_assoc]

theorem fileurl_matchAt_linkTag (z : Text) :
    (fileurl table).matchAt (linkTag ++ z) = some ⟨23,
      Function.update (Function.update (fun _ => []) 1 "style.css".toList) 0 linkTag⟩ := by
  have h1 : isSpace table 'l' = false := rfl
  have h2 : isSpace table '=' = false := rfl
  have h3 : isSpace table (Char.ofNat 34) = false := rfl
  simp [Rx.matchAt, fileurl, image, link_element, resource_url, tail, Rx.cat, Rx.run, starRun,
    linkTag, List.isPrefixOf, h1, h2, h3, dq]

theorem fileurl_matchAt_newline (z : Text) : (fileurl table).matchAt ('\n' :: z) = none := by
  simp [Rx.matchAt, fileurl, image, link_element, resource_url, tail, Rx.cat, Rx.run,
    List.isPrefixOf]

theorem replace_styleOpen (z : Text) :
    replace (styleOpen ++ z) linkTag (styleOpen ++ (linkTag ++ styleClose))
      = styleOpen ++ replace z linkTag (styleOpen ++ (linkTag ++ styleClose)) := by
  simp [replace, replaceGo, styleOpen, linkTag, List.isPrefixOf]

theorem replace_styleClose (z : Text) :
    replace (styleClose ++ z) linkTag (styleOpen ++ (linkTag ++ styleClose))
      = styleClose ++ replace z linkTag (styleOpen ++ (linkTag ++ styleClose)) := by
  simp [replace, replaceGo, styleClose, linkTag, List.isPrefixOf]

theorem replace_rep_styleOpen (z : Text) : ∀ k,
    replace (rep styleOpen k ++ z) linkTag (styleOpen ++ (linkTag ++ styleClose))
      = rep styleOpen k ++ replace z linkTag (styleOpen ++ (linkTag ++ styleClose)) := by
  intro k
  induction k with
  | zero => rfl
  | succ k ih =>
    show replace ((styleOpen ++ rep styleOpen k) ++ z) _ _ = (styleOpen ++ rep styleOpen k) ++ _
    rw [List.append_assoc, replace_styleOpen, ih, List.append_assoc]

theorem replace_rep_styleClose : ∀ k,
    replace (rep styleClose k) linkTag (styleOpen ++ (linkTag ++ styleClose))
      = rep styleClose k := by
  intro k
  induction k with
  | zero => rfl
  | succ k ih =>
    show replace (styleClose ++ rep styleClose k) _ _ = styleClose ++ rep styleClose k
    rw [replace_styleClose, ih]

theorem replace_nested (k : Nat) :
    replace (nested k) linkTag (styleOpen ++ (linkTag ++ styleClose)) = nested (k + 1) := by
  unfold nested
  rw [replace_rep_styleOpen, replace_append_self _ _ (by decide), replace_rep_styleClose,
    rep_succ_right styleOpen k]
  show _ = _ ++ (linkTag ++ (styleClose ++ rep styleClose k))
  simp only [List.append_assoc]

theorem indexOf_nested (k idx : Nat) (h1 : idx ≤ 24 * k) (h2 : 24 * k ≤ idx + 1) :
    indexOf (nested k) (fileurl table) idx = some (24 * k, ⟨23,
      Function.update (Function.update (fun _ => []) 1 "style.css".toList) 0 linkTag⟩) := by
  have hlen : (rep styleOpen k).length = 24 * k := by
    rw [rep_length, Nat.mul_comm]
    rfl
  have hle : idx ≤ (nested k).length := by
    unfold nested
    rw [List.length_append, hlen]
    omega
  unfold indexOf
  rw [if_pos hle]
  by_cases hidx : idx = 24 * k
  · subst hidx
    unfold nested
    rw [List.drop_left' hlen]
    exact Rx.search_head _ (fileurl_matchAt_linkTag _)
  · obtain ⟨j, rfl⟩ : ∃ j, k = j + 1 := ⟨k - 1, by omega⟩
    have hi : idx = 24 * j + 23 := by omega
    subst hi
    have hl2 : (rep styleOpen j ++ "<style type=\"text/css\">".toList).length = 24 * j + 23 := by
      rw [List.length_append, rep_length, Nat.mul_comm]
      rfl
    have e : nested (j + 1) = (rep styleOpen j ++ "<style type=\"text/css\">".toList)
        ++ '\n' :: (linkTag ++ rep styleClose (j + 1)) := by
      unfold nested
      rw [rep_succ_right styleOpen j]
      simp [styleOpen]
    rw [e, List.drop_left' hl2, Rx.search, fileurl_matchAt_newline]
    exact Rx.search_head _ (fileurl_matchAt_linkTag _)

theorem LoadFolderStructure_loop_nested (ufuel : Nat) :
    ∀ (fuel k idx : Nat), idx ≤ 24 * k → 24 * k ≤ idx + 1 →
      LoadFolderStructure.loop table loopEnv ufuel fuel idx ⟨nested k, []⟩ = none := by
  intro fuel
  induction fuel with
  | zero =>
    intro k idx _ _
    rfl
  | succ fuel ih =>
    intro k idx h1 h2
    rw [LoadFolderStructure.loop, indexOf_nested k idx h1 h2]
    have hcss : (!contains (loopEnv.resolve "style.css".toList) ".css".toList) = false := by
      decide
    have htag : CreateStyleTag loopEnv.readFile (loopEnv.resolve "style.css".toList)
        = styleOpen ++ (linkTag ++ styleClose) := by
      decide
    show (if (!contains (loopEnv.resolve "style.css".toList) ".css".toList) = true then _
      else LoadFolderStructure.loop table loopEnv ufuel fuel (24 * k + 23)
        ⟨replace (nested k) linkTag
          (CreateStyleTag loopEnv.readFile (loopEnv.resolve "style.css".toList)), []⟩) = none
    rw [hcss, htag, replace_nested]
    exact ih (k + 1) (24 * k + 23) (by omega) (by omega)

/-- C10, failing input: the document is the one tag `<link href="style.css">`
and the file `style.css` holds that same tag.  Whatever the fuel, the loop of
`LoadFolderStructure` does not come to an end: each round inlines the file
behind the cursor and finds the tag again in the inlined text. -/
theorem LoadFolderStructure_diverges (table : UnicodeTable) (ufuel fuel : Nat) :
    LoadFolderStructure table loopEnv ufuel fuel ⟨"<link href=\"style.css\">".toList, []⟩
      = none :=
  LoadFolderStructure_loop_nested ufuel fuel 0 0 (by omega) (by omega)

/-- C1, failing input: two image tags, the reference of the first longer than
the path it is given.  The cursor, set from the match in the old text, lies
beyond the start of the second tag after the first reference has been rewritten,
so the second image is not handed to `AddContentFileToFolder` and its reference
stays as it was. -/
theorem LoadFolderStructure_skips_image (table : UnicodeTable) (ufuel fuel : Nat) :
    LoadFolderStructure table bookEnv (ufuel + 2) (fuel + 2)
        ⟨"<img src=\"chapters/one/img/cover.jpg\"><img src=\"img/back.jpg\">".toList, []⟩
      = some ⟨"<img src=\"../images/cover.jpg\"><img src=\"img/back.jpg\">".toList,
          ["/book/chapters/one/img/cover.jpg".toList]⟩ := by
  rfl

/-- C2, failing input: an image tag with a long reference, then
`<link href="style.css">`, whose reference resolves to a file of suffix `css`.
The cursor lies beyond the link tag after the image reference has been
rewritten: the link tag is still in the final source and no style block is. -/
theorem LoadFolderStructure_skips_link (table : UnicodeTable) (ufuel fuel : Nat) :
    suffix (bookEnv.resolve "style.css".toList) = "css".toList ∧
    LoadFolderStructure table bookEnv (ufuel + 2) (fuel + 2)
        ⟨"<img src=\"chapters/one/img/cover.jpg\"><link href=\"style.css\">".toList, []⟩
      = some ⟨"<img src=\"../images/cover.jpg\"><link href=\"style.css\">".toList,
          ["/book/chapters/one/img/cover.jpg".toList]⟩ :=
  ⟨by decide, by rfl⟩

/-- C3, failing input: the document `<link href="template.xpgt">`.  The path
does not contain `.css`, so the file is handed to `AddContentFileToFolder` and
the reference is rewritten; no style block is built. -/
theorem LoadFolderStructure_xpgt_copied (table : UnicodeTable) (ufuel fuel : Nat) :
    LoadFolderStructure table bookEnv (ufuel + 2) (fuel + 2)
        ⟨"<link href=\"template.xpgt\">".toList, []⟩
      = some ⟨"<link href=\"../images/template.xpgt\">".toList,
          ["/book/template.xpgt".toList]⟩ := by
  rfl

/-- When the scan does reach a link to a CSS file, the whole tag gives way to the
style block and nothing is handed to the content folder. -/
theorem LoadFolderStructure_inlines_css (table : UnicodeTable) (ufuel fuel : Nat) :
    LoadFolderStructure table bookEnv ufuel (fuel + 2)
        ⟨"<link href=\"style.css\"><p>".toList, []⟩
      = some ⟨"<style type=\"text/css\">\nbody{}\n</style>\n<p>".toList, []⟩ := by
  rfl

/-! ## `UpdateReferences` -/

theorem mem_replace_of_mem {before : Text} (after : Text) {x : Char} (hb : before ≠ [])
    (hx : x ∉ before) {s : Text} (hs : x ∈ s) : x ∈ replace s before after := by
  obtain ⟨u, v, rfl⟩ := List.append_of_mem hs
  rw [replace_append_cons after hb hx]
  simp

theorem exists_last_occurrence (x : Char) :
    ∀ l : Text, x ∈ l → ∃ u v, l = u ++ x :: v ∧ x ∉ v := by
  intro l
  induction l with
  | nil => intro h; simp at h
  | cons c cs ih =>
    intro h
    by_cases hcs : x ∈ cs
    · obtain ⟨u, v, hl, hv⟩ := ih hcs
      exact ⟨c :: u, v, by rw [hl]; rfl, hv⟩
    · rcases List.mem_cons.1 h with h | h
      · exact ⟨[], cs, by rw [h]; rfl, hcs⟩
      · exact absurd h hcs

/-- If the rewritten text ends in an open tag, so did the text before. -/
theorem open_tag_of_replace {before after : Text} (hb : before ≠ []) (hbg : '>' ∉ before)
    (hal : '<' ∉ after) (hag : '>' ∉ after) {u pre1 a1 : Text}
    (h : replace u before after = pre1 ++ '<' :: a1) (ha1 : '>' ∉ a1) :
    ∃ pre a, u = pre ++ '<' :: a ∧ '>' ∉ a := by
  by_cases hg : '>' ∈ u
  · obtain ⟨u1, u2, hu, hu2⟩ := exists_last_occurrence '>' u hg
    have hr2 : '>' ∉ replace u2 before after := not_mem_replace hb hag hu2
    rw [hu, replace_append_cons after hb hbg] at h
    have hlt : '<' ∈ replace u2 before after := by
      rcases List.append_eq_append_iff.1 h with ⟨t, _, h2⟩ | ⟨t, _, h2⟩
      · cases t with
        | nil =>
          simp only [List.nil_append, List.cons.injEq] at h2
          exact absurd h2.1 (by decide)
        | cons d ds =>
          simp only [List.cons_append, List.cons.injEq] at h2
          rw [h2.2]
          simp
      · cases t with
        | nil =>
          simp only [List.nil_append, List.cons.injEq] at h2
          exact absurd h2.1 (by decide)
        | cons d ds =>
          simp only [List.cons_append, List.cons.injEq] at h2
          exfalso
          apply ha1
          rw [h2.2]
          simp
    rcases mem_replace hb _ _ hlt with h3 | h3
    · obtain ⟨y, a, hy⟩ := List.append_of_mem h3
      refine ⟨u1 ++ '>' :: y, a, by rw [hu, hy]; simp, ?_⟩
      intro ha
      apply hu2
      rw [hy]
      simp [ha]
    · exact absurd h3 hal
  · have hlt : '<' ∈ replace u before after := by
      rw [h]
      simp
    rcases mem_replace hb _ _ hlt with h3 | h3
    · obtain ⟨y, a, hy⟩ := List.append_of_mem h3
      refine ⟨y, a, hy, ?_⟩
      intro ha
      apply hg
      rw [hy]
      simp [ha]
    · exact absurd h3 hal

/-- A quoted value of the rewritten text is the rewriting of a quoted value of
the text before. -/
theorem quoted_replace {before after : Text} (hb : before ≠ []) (hbq : dq ∉ before)
    (hbg : '>' ∉ before) (haq : dq ∉ after) (hal : '<' ∉ after) (hag : '>' ∉ after)
    {src s1 : Text} (h : Quoted (replace src before after) s1) :
    ∃ s, Quoted src s ∧ s1 = replace s before after := by
  obtain ⟨pre1, a1, b1, post1, hsrc, ha1, hs1q, hs1g, hb1⟩ := h
  have e1 : replace src before after
      = (pre1 ++ '<' :: a1) ++ dq :: (s1 ++ dq :: (b1 ++ '>' :: post1)) := by
    rw [hsrc]
    simp
  obtain ⟨u, v1, hu, hX1, hY1⟩ := replace_eq_append_cons hb haq src _ _ e1
  obtain ⟨s, v2, hv1, hs, hY2⟩ := replace_eq_append_cons hb haq v1 _ _ hY1.symm
  obtain ⟨b, post, hv2, hbb, _⟩ := replace_eq_append_cons hb hag v2 _ _ hY2.symm
  obtain ⟨pre, a, hpa, ha⟩ := open_tag_of_replace hb hbg hal hag hX1.symm ha1
  refine ⟨s, ⟨pre, a, b, post, ?_, ha, ?_, ?_, ?_⟩, hs⟩
  · rw [hu, hv1, hv2, hpa]
    simp
  · intro hq
    exact hs1q (hs ▸ mem_replace_of_mem after hb hbq hq)
  · intro hq
    exact hs1g (hs ▸ mem_replace_of_mem after hb hbg hq)
  · intro hq
    exact hb1 (hbb ▸ mem_replace_of_mem after hb hbg hq)

theorem Quoted.substring {src s : Text} (h : Quoted src s) : s <:+: src := by
  obtain ⟨pre, a, b, post, hsrc, _⟩ := h
  refine ⟨pre ++ '<' :: (a ++ [dq]), dq :: (b ++ '>' :: post), ?_⟩
  rw [hsrc]
  simp

theorem tagReference_sem {F x : Text} {c c1 : Caps} (h : (tagReference F).Sem x c c1) :
    ∃ a s0 b, x = '<' :: (a ++ dq :: ((s0 ++ F) ++ dq :: (b ++ ['>']))) ∧
      c1 1 = s0 ++ F ∧ (∀ ch ∈ a, (ch != '>') = true) ∧
      (∀ ch ∈ s0, (ch != dq && ch != '>') = true) ∧ (∀ ch ∈ b, (ch != '>') = true) := by
  simp only [tagReference, Rx.cat] at h
  cases h with
  | seq h1 h2 =>
    cases h1
    cases h2 with
    | seq h3 h4 =>
      cases h3 with
      | star _ _ _ ha =>
        cases h4 with
        | seq h5 h6 =>
          cases h5
          cases h6 with
          | seq h7 h8 =>
            cases h7 with
            | group _ h9 =>
              cases h9 with
              | seq h10 h11 =>
                cases h10 with
                | star _ _ _ hs0 =>
                  cases h11
                  cases h8 with
                  | seq h12 h13 =>
                    cases h12
                    cases h13 with
                    | seq h14 h15 =>
                      cases h14 with
                      | star _ _ _ hb =>
                        cases h15
                        exact ⟨_, _, _, by simp, by simp, ha, hs0, hb⟩

theorem tagReference_sound {F src : Text} (hFq : dq ∉ F) (hFg : '>' ∉ F) {i : Nat} {hit : Hit}
    (h : indexOf src (tagReference F) 0 = some (i, hit)) :
    Quoted src (hit.cap 1) ∧ F <:+ hit.cap 1 := by
  rw [indexOf_zero] at h
  obtain ⟨pre, rest, hsrc, _, hm⟩ := Rx.search_sound src 0 i hit h
  obtain ⟨x, rest1, caps1, hx, hsem, hhit⟩ := Rx.matchAt_sound hm
  obtain ⟨a, s0, b, hxs, hcap, ha, hs0, hb⟩ := tagReference_sem hsem
  have hc : hit.cap 1 = s0 ++ F := by
    rw [hhit]
    simp [Function.update, hcap]
  rw [hc]
  refine ⟨⟨pre, a, b, rest1, ?_, ?_, ?_, ?_, ?_⟩, ⟨s0, rfl⟩⟩
  · rw [hsrc, hx, hxs]
    simp
  · intro hg
    simpa using ha _ hg
  · intro hq
    rcases List.mem_append.1 hq with hq | hq
    · simpa using hs0 _ hq
    · exact hFq hq
  · intro hg
    rcases List.mem_append.1 hg with hg | hg
    · simpa using hs0 _ hg
    · exact hFg hg
  · intro hg
    simpa using hb _ hg

theorem tagReference_complete {F src s : Text} (hq : Quoted src s) (hF : F <:+ s) :
    ∃ i hit, indexOf src (tagReference F) 0 = some (i, hit) := by
  obtain ⟨pre, a, b, post, hsrc, ha, hsq, hsg, hb⟩ := hq
  obtain ⟨s0, rfl⟩ := hF
  have hne : ∀ (l : Text) (x : Char), x ∉ l → ∀ ch ∈ l, (ch != x) = true := by
    intro l x hx ch hch
    simp only [bne_iff_ne, ne_eq]
    rintro rfl
    exact hx hch
  have hsem : (tagReference F).Matches ('<' :: (a ++ dq :: ((s0 ++ F) ++ dq :: (b ++ ['>'])))) := by
    have := Rx.Sem.seq (Rx.Sem.lit ['<'] (fun _ => []))
      (Rx.Sem.seq (Rx.Sem.star (fun c => c != '>') a _ (hne a '>' ha))
        (Rx.Sem.seq (Rx.Sem.lit [dq] _)
          (Rx.Sem.seq (Rx.Sem.group 1
              (Rx.Sem.seq (Rx.Sem.star (fun c => c != dq && c != '>') s0 _ (by
                intro ch hch
                have h1 := hne _ dq hsq ch (List.mem_append_left _ hch)
                have h2 := hne _ '>' hsg ch (List.mem_append_left _ hch)
                simp [h1, h2])) (Rx.Sem.lit F _)))
            (Rx.Sem.seq (Rx.Sem.lit [dq] _)
              (Rx.Sem.seq (Rx.Sem.star (fun c => c != '>') b _ (hne b '>' hb))
                (Rx.Sem.lit ['>'] _))))))
    exact ⟨fun _ => [], _, by simpa [tagReference, Rx.cat] using this⟩
  have hm := Rx.matchAt_complete hsem post
  have hs := Rx.search_complete (r := tagReference F) pre _ 0 hm
  rw [indexOf_zero]
  have e : src = pre ++ ('<' :: (a ++ dq :: ((s0 ++ F) ++ dq :: (b ++ ['>']))) ++ post) := by
    rw [hsrc]
    simp
  rw [e]
  cases hh : (tagReference F).search 0 (pre ++ ('<' :: (a ++ dq :: ((s0 ++ F) ++ dq ::
      (b ++ ['>']))) ++ post)) with
  | none => rw [hh] at hs; simp at hs
  | some p => exact ⟨p.1, p.2, rfl⟩

theorem length_lt_of_infix_ne {N cap : Text} (h : N <:+: cap) (hne : cap ≠ N) :
    N.length < cap.length := by
  rcases Nat.lt_or_ge N.length cap.length with hl | hl
  · exact hl
  · exact absurd (h.eq_of_length_le hl).symm hne

theorem not_infix_of_length_lt {a b : Text} (h : b.length < a.length) : ¬ a <:+: b := by
  intro hi
  have := hi.length_le
  omega

/-- The rounds of `UpdateReferences` after the first: when every quoted value
that ends with the file name holds the new path, the loop ends and leaves the
pieces between double quotes that are the new path in place. -/
theorem UpdateReferences_loop_tail {F N : Text} (hF : F ≠ []) (hFq : dq ∉ F) (hFg : '>' ∉ F)
    (hNq : dq ∉ N) (hNl : '<' ∉ N) (hNg : '>' ∉ N) :
    ∀ (src : Text) (index : Option Nat), (∀ s, Quoted src s → F <:+ s → N <:+: s) →
      ∃ n final,
        (∀ fuel, n ≤ fuel →
          UpdateReferences.loop (tagReference F) N fuel index src = some final) ∧
        (split dq final).length = (split dq src).length ∧
        ∀ j : Nat, (split dq src)[j]? = some N → (split dq final)[j]? = some N := by
  suffices H : ∀ m (src : Text), src.length = m → ∀ index : Option Nat,
      (∀ s, Quoted src s → F <:+ s → N <:+: s) →
      ∃ n final,
        (∀ fuel, n ≤ fuel →
          UpdateReferences.loop (tagReference F) N fuel index src = some final) ∧
        (split dq final).length = (split dq src).length ∧
        ∀ j : Nat, (split dq src)[j]? = some N → (split dq final)[j]? = some N from
    fun src index hinv => H _ src rfl index hinv
  intro m
  induction m using Nat.strong_induction_on with
  | _ m ih =>
    intro src hm index hinv
    cases hidx : indexOf src (tagReference F) 0 with
    | none =>
      refine ⟨1, src, ?_, rfl, fun j h => h⟩
      intro fuel hfuel
      obtain ⟨f, rfl⟩ : ∃ f, fuel = f + 1 := ⟨fuel - 1, by omega⟩
      simp [UpdateReferences.loop, hidx]
    | some p =>
      obtain ⟨i, hit⟩ := p
      by_cases hsame : index = some i
      · refine ⟨1, src, ?_, rfl, fun j h => h⟩
        intro fuel hfuel
        obtain ⟨f, rfl⟩ : ∃ f, fuel = f + 1 := ⟨fuel - 1, by omega⟩
        simp [UpdateReferences.loop, hidx, hsame]
      · obtain ⟨hq, hsuf⟩ := tagReference_sound hFq hFg hidx
        have hcap : hit.cap 1 ≠ [] := by
          intro h0
          rw [h0] at hsuf
          exact hF (List.eq_nil_of_suffix_nil hsuf)
        obtain ⟨pre, a, b, post, hsrc, ha, hcq, hcg, hb⟩ := id hq
        have hinf := hinv _ hq hsuf
        by_cases hcN : hit.cap 1 = N
        · refine ⟨2, src, ?_, rfl, fun j h => h⟩
          intro fuel hfuel
          obtain ⟨f, rfl⟩ : ∃ f, fuel = f + 2 := ⟨fuel - 2, by omega⟩
          have hrep : replace src (hit.cap 1) N = src := by
            rw [hcN]
            exact replace_self (hcN ▸ hcap) src
          rw [UpdateReferences.loop, hidx]
          simp only [hsame, if_false, hrep]
          rw [UpdateReferences.loop, hidx]
          simp
        · have hlen : N.length < (hit.cap 1).length := length_lt_of_infix_ne hinf hcN
          have hlt : (replace src (hit.cap 1) N).length < src.length :=
            length_replace_lt hcap hlen src hq.substring
          have hinv1 : ∀ s, Quoted (replace src (hit.cap 1) N) s → F <:+ s → N <:+: s := by
            intro s1 hq1 hs1
            obtain ⟨s, hqs, rfl⟩ := quoted_replace hcap hcq hcg hNq hNl hNg hq1
            by_cases hin : hit.cap 1 <:+: s
            · exact infix_replace N hcap s hin
            · rw [replace_of_absent N hcap s hin] at hs1 ⊢
              exact hinv s hqs hs1
          obtain ⟨n1, final, hrun, hlen1, hpieces⟩ :=
            ih _ (hm ▸ hlt) (replace src (hit.cap 1) N) rfl (some i) hinv1
          have hsplit := split_replace N hcap hcq hNq src
          refine ⟨n1 + 1, final, ?_, ?_, ?_⟩
          · intro fuel hfuel
            obtain ⟨f, rfl⟩ : ∃ f, fuel = f + 1 := ⟨fuel - 1, by omega⟩
            rw [UpdateReferences.loop, hidx]
            simp only [hsame, if_false]
            exact hrun f (by omega)
          · rw [hlen1, hsplit, List.length_map]
          · intro j hj
            apply hpieces
            rw [hsplit, List.getElem?_map, hj, Option.map_some',
              replace_of_absent N hcap N (not_infix_of_length_lt hlen)]

/-- The loop of `UpdateReferences` on a text whose quoted values that end with
the file name `F` all read `c`: it ends, and every piece between double quotes
that was `c` is the new path `N`. -/
theorem UpdateReferences_loop_converges {F c N : Text} (hF : F ≠ []) (hFq : dq ∉ F)
    (hFg : '>' ∉ F) (hNq : dq ∉ N) (hNl : '<' ∉ N) (hNg : '>' ∉ N) (src : Text)
    (hsame : ∀ s, Quoted src s → F <:+ s → s = c) :
    ∃ n final,
      (∀ fuel, n ≤ fuel →
        UpdateReferences.loop (tagReference F) N fuel none src = some final) ∧
      (split dq final).length = (split dq src).length ∧
      ((∃ s, Quoted src s ∧ F <:+ s) →
        ∀ j : Nat, (split dq src)[j]? = some c → (split dq final)[j]? = some N) := by
  cases hidx : indexOf src (tagReference F) 0 with
  | none =>
    refine ⟨1, src, ?_, rfl, ?_⟩
    · intro fuel hfuel
      obtain ⟨f, rfl⟩ : ∃ f, fuel = f + 1 := ⟨fuel - 1, by omega⟩
      simp [UpdateReferences.loop, hidx]
    · rintro ⟨s, hq, hs⟩
      obtain ⟨i, hit, h⟩ := tagReference_complete hq hs
      rw [hidx] at h
      simp at h
  | some p =>
    obtain ⟨i, hit⟩ := p
    obtain ⟨hq, hsuf⟩ := tagReference_sound hFq hFg hidx
    have hc : hit.cap 1 = c := hsame _ hq hsuf
    rw [hc] at hq hsuf
    have hcap : c ≠ [] := by
      intro h0
      rw [h0] at hsuf
      exact hF (List.eq_nil_of_suffix_nil hsuf)
    obtain ⟨pre, a, b, post, hsrc, ha, hcq, hcg, hb⟩ := id hq
    have hinv1 : ∀ s, Quoted (replace src c N) s → F <:+ s → N <:+: s := by
      intro s1 hq1 hs1
      obtain ⟨s, hqs, rfl⟩ := quoted_replace hcap hcq hcg hNq hNl hNg hq1
      by_cases hin : c <:+: s
      · exact infix_replace N hcap s hin
      · exfalso
        rw [replace_of_absent N hcap s hin] at hs1
        exact hin (hsame s hqs hs1 ▸ List.infix_refl _)
    obtain ⟨n1, final, hrun, hlen1, hpieces⟩ :=
      UpdateReferences_loop_tail hF hFq hFg hNq hNl hNg (replace src c N) (some i) hinv1
    have hsplit := split_replace N hcap hcq hNq src
    refine ⟨n1 + 1, final, ?_, ?_, ?_⟩
    · intro fuel hfuel
      obtain ⟨f, rfl⟩ : ∃ f, fuel = f + 1 := ⟨fuel - 1, by omega⟩
      rw [UpdateReferences.loop, hidx]
      simp only [hc]
      exact hrun f (by omega)
    · rw [hlen1, hsplit, List.length_map]
    · intro _ j hj
      apply hpieces
      have hcc : replace c c N = N := by
        have := replace_append_self N [] hcap
        rw [List.append_nil, replace_nil N hcap, List.append_nil] at this
        exact this
      rw [hsplit, List.getElem?_map, hj, Option.map_some', hcc]

theorem quoted_quotedTag (p a value b q : Text) (ha : '>' ∉ a) (hvq : dq ∉ value)
    (hvg : '>' ∉ value) (hb : '>' ∉ b) : Quoted (p ++ quotedTag a value b ++ q) value :=
  ⟨p, a, b, q, by simp [quotedTag], ha, hvq, hvg, hb⟩

theorem quoted_mem_split {src s : Text} (h : Quoted src s) : s ∈ split dq src := by
  obtain ⟨pre, a, b, post, hsrc, _, hsq, _, _⟩ := h
  have key : ∀ (m : Nat) (x y : Text), x.length = m → s ∈ split dq (x ++ dq :: (s ++ dq :: y)) := by
    intro m
    induction m using Nat.strong_induction_on with
    | _ m ih =>
      intro x y hx
      by_cases hmem : dq ∈ x
      · obtain ⟨p, rest, hp, hpn⟩ := List.eq_append_cons_of_mem hmem
        rw [hp, List.append_assoc, List.cons_append, split_append_cons dq _ p hpn]
        exact List.mem_cons_of_mem _ (ih rest.length (by rw [← hx, hp]; simp; omega) rest y rfl)
      · rw [split_append_cons dq _ x hmem, split_append_cons dq _ s hsq]
        simp
  have := key _ (pre ++ '<' :: a) (b ++ '>' :: post) rfl
  rw [hsrc]
  simpa using this

/-- C4: in a source whose tags hold no double-quoted value ending in `pic.png`
other than `images/pic.png`, and that holds three tags with that quoted value,
`UpdateReferences( "images/pic.png", new_path )` ends (from some amount of fuel
on it returns the same final text) for every `new_path` without double quote,
`<` and `>`, so for `../Images/pic001.png` and for every such path that contains
`pic.png`; the final text has as many pieces between double quotes as the source,
and every piece that was `images/pic.png`, the three quoted values among them,
is `new_path`. -/
theorem UpdateReferences_three_tags (table : UnicodeTable)
    (src newpath p0 a1 b1 p1 a2 b2 p2 a3 b3 p3 : Text)
    (hsrc : src = p0 ++ quotedTag a1 "images/pic.png".toList b1 ++ p1
      ++ quotedTag a2 "images/pic.png".toList b2 ++ p2
      ++ quotedTag a3 "images/pic.png".toList b3 ++ p3)
    (ha1 : '>' ∉ a1) (hb1 : '>' ∉ b1) (ha2 : '>' ∉ a2) (hb2 : '>' ∉ b2)
    (ha3 : '>' ∉ a3) (hb3 : '>' ∉ b3)
    (honly : ∀ s, Quoted src s → "pic.png".toList <:+ s → s = "images/pic.png".toList)
    (hNq : dq ∉ newpath) (hNl : '<' ∉ newpath) (hNg : '>' ∉ newpath) :
    ∃ n final,
      (∀ fuel, n ≤ fuel →
        UpdateReferences table fuel src "images/pic.png".toList newpath = some final) ∧
      (split dq final).length = (split dq src).length ∧
      ∀ j : Nat, (split dq src)[j]? = some "images/pic.png".toList →
        (split dq final)[j]? = some newpath := by
  have hrx : reference table (fileName "images/pic.png".toList)
      = tagReference "pic.png".toList := by
    rfl
  obtain ⟨n, final, hrun, hlen, hpieces⟩ :=
    UpdateReferences_loop_converges (F := "pic.png".toList) (c := "images/pic.png".toList)
      (by decide) (by decide) (by decide) hNq hNl hNg src honly
  refine ⟨n, final, ?_, hlen, hpieces ⟨"images/pic.png".toList, ?_, by decide⟩⟩
  · intro fuel hfuel
    unfold UpdateReferences
    rw [hrx]
    exact hrun fuel hfuel
  · have := quoted_quotedTag p0 a1 "images/pic.png".toList b1
      (p1 ++ quotedTag a2 "images/pic.png".toList b2 ++ p2
        ++ quotedTag a3 "images/pic.png".toList b3 ++ p3) ha1 (by decide) (by decide) hb1
    rw [hsrc]
    simpa [List.append_assoc] using this

/-- C4, witness: three image tags and the new path `../Images/pic001.png`. -/
theorem UpdateReferences_three_tags_witness :
    ∃ n final,
      (∀ fuel, n ≤ fuel →
        UpdateReferences latin1 fuel
          ("<img src=\"images/pic.png\"><img src=\"images/pic.png\"><img src=\"images/pic.png\">".toList)
          "images/pic.png".toList "../Images/pic001.png".toList = some final) ∧
      (split dq final).length = (split dq
          "<img src=\"images/pic.png\"><img src=\"images/pic.png\"><img src=\"images/pic.png\">".toList).length ∧
      ∀ j : Nat, (split dq
          "<img src=\"images/pic.png\"><img src=\"images/pic.png\"><img src=\"images/pic.png\">".toList)[j]?
            = some "images/pic.png".toList →
        (split dq final)[j]? = some "../Images/pic001.png".toList :=
  UpdateReferences_three_tags latin1 _ "../Images/pic001.png".toList [] "img src=".toList [] []
    "img src=".toList [] [] "img src=".toList [] [] (by decide)
    (by decide) (by decide) (by decide) (by decide) (by decide) (by decide)
    (fun s hq hs => (by decide : ∀ s ∈ split dq
        "<img src=\"images/pic.png\"><img src=\"images/pic.png\"><img src=\"images/pic.png\">".toList,
        "pic.png".toList <:+ s → s = "images/pic.png".toList) s (quoted_mem_split hq) hs)
    (by decide) (by decide) (by decide)

end Sigil
